import Mathlib

/-!
Shallow embedding of the rvm-old version/range parsing library
(src/parsing/version_parser.rs and src/parsing/grammer.rs).

Versions carry numeric major/minor/patch components (u32 in the source;
the numeric parser enforces the u32 bound explicitly below) and three
optional string components.  Strings are modelled as Lean strings; the
Rust byte-lexicographic order on strings coincides with code-point
lexicographic order because UTF-8 preserves code-point order.
-/

namespace Rvm

/-- Errors of version_parser.rs (ParseError enum). -/
inductive ParseError where
  | version : ParseError
  | range : ParseError
deriving DecidableEq

/-- The Version struct of version_parser.rs. -/
structure Version where
  major : Nat
  minor : Nat
  patch : Nat
  extra_version : Option String
  pre_release : Option String
  build : Option String
deriving DecidableEq

/-- The Op enum of version_parser.rs. -/
inductive Op where
  | Eq | Ne | Gt | Lt | Ge | Le | Tilde | Caret
deriving DecidableEq

/-- Strict lexicographic comparison of char lists by code point,
    modelling Rust's `<` on `String` (byte-lexicographic, which equals
    code-point lexicographic under UTF-8). -/
def strLtL : List Char → List Char → Bool
  | [], [] => false
  | [], _ :: _ => true
  | _ :: _, [] => false
  | a :: as, b :: bs =>
    if a.toNat < b.toNat then true
    else if b.toNat < a.toNat then false
    else strLtL as bs

/-- Rust's `<` on `String`. -/
def strLt (a b : String) : Bool := strLtL a.data b.data

/-- Rust's `<` on `Option<String>`: `None < Some _`. -/
def optStrLt : Option String → Option String → Bool
  | none, none => false
  | none, some _ => true
  | some _, none => false
  | some a, some b => strLt a b

/-- Version::partial_cmp (range order): major, minor, patch,
    extra_version; pre_release and build are ignored.  Every branch of
    the source returns `Some`. -/
def Version.partial_cmp (a b : Version) : Option Ordering :=
  if a.major < b.major then some Ordering.lt
  else if a.major > b.major then some Ordering.gt
  else if a.minor < b.minor then some Ordering.lt
  else if a.minor > b.minor then some Ordering.gt
  else if a.patch < b.patch then some Ordering.lt
  else if a.patch > b.patch then some Ordering.gt
  else if optStrLt a.extra_version b.extra_version then some Ordering.lt
  else if optStrLt b.extra_version a.extra_version then some Ordering.gt
  else some Ordering.eq

/-- Ord::cmp for Version: `partial_cmp(other).unwrap()`.  The unwrap
    never fires (see the partial_cmp-is-total theorem); the `getD`
    default is therefore irrelevant. -/
def Version.cmp (a b : Version) : Ordering :=
  (Version.partial_cmp a b).getD Ordering.eq

/-- Version::is (structural equality on all six fields). -/
def Version.is (a b : Version) : Bool :=
  decide (a.major = b.major) && decide (a.minor = b.minor) &&
  decide (a.patch = b.patch) && decide (a.extra_version = b.extra_version) &&
  decide (a.pre_release = b.pre_release) && decide (a.build = b.build)

/-- Version::is_older_than, exactly as written in the source: a
    component-wise OR of independent less-than checks. -/
def Version.is_older_than (a b : Version) : Bool :=
  decide (a.major < b.major) || decide (a.minor < b.minor) ||
  decide (a.patch < b.patch) ||
  optStrLt a.extra_version b.extra_version ||
  optStrLt a.pre_release b.pre_release

/-- Version::to_string prints decimal numbers; decimal digits of a
    natural number, most significant first, via a fuel-driven loop. -/
def natToDecAux : Nat → Nat → List Char
  | 0, _ => []
  | _ + 1, 0 => []
  | f + 1, n => Nat.digitChar (n % 10) :: natToDecAux f (n / 10)

/-- Decimal rendering of a natural number (Rust's `format!` of a u32). -/
def natToDec (n : Nat) : List Char :=
  if n = 0 then ['0'] else (natToDecAux n n).reverse

/-- An optional component's rendering: a tag character followed by the
    token, or nothing. -/
def renderOpt (tag : Char) : Option String → List Char
  | none => []
  | some t => tag :: t.data

/-- Version::to_string: `major.minor.patch` then optional `.extra`,
    `-pre`, `+build`. -/
def Version.to_string (v : Version) : List Char :=
  natToDec v.major ++ '.' ::
  (natToDec v.minor ++ '.' ::
  (natToDec v.patch ++
  (renderOpt '.' v.extra_version ++
  (renderOpt '-' v.pre_release ++ renderOpt '+' v.build))))

/-- The Range struct of version_parser.rs.  `min` is inclusive, `max`
    exclusive. -/
structure Range where
  min : Option Version
  max : Option Version
  except : List Version
  incl : List Version
deriving DecidableEq

/-- Range::tilde_range_to_vec: `~v` becomes `>=v, <(major, minor+1, 0)`.
    The bump is u32 arithmetic, which wraps at u32::MAX (release-mode
    semantics; a debug build panics there instead). -/
def Range.tilde_range_to_vec (version : Version) : List (Op × Version) :=
  [(Op.Ge, version),
   (Op.Lt, Version.mk version.major ((version.minor + 1) % 4294967296) 0
     none none none)]

/-- Range::caret_range_to_vec: `^v` becomes `>=v, <(major+1, 0, 0)`,
    with the same wrapping u32 bump. -/
def Range.caret_range_to_vec (version : Version) : List (Op × Version) :=
  [(Op.Ge, version),
   (Op.Lt, Version.mk ((version.major + 1) % 4294967296) 0 0 none none none)]

/-- Range::le_range_to_lt: `<=v` becomes `<(major, minor, patch+1)`,
    with the same wrapping u32 bump. -/
def Range.le_range_to_lt (version : Version) : List (Op × Version) :=
  [(Op.Lt, Version.mk version.major version.minor
    ((version.patch + 1) % 4294967296) none none none)]

/-- Range::le_range_to_vec delegates to le_range_to_lt. -/
def Range.le_range_to_vec (version : Version) : List (Op × Version) :=
  Range.le_range_to_lt version

/-- Range::gt_range_to_ge: `>v` becomes `>=(major, minor, patch+1)`,
    with the same wrapping u32 bump. -/
def Range.gt_range_to_ge (version : Version) : List (Op × Version) :=
  [(Op.Ge, Version.mk version.major version.minor
    ((version.patch + 1) % 4294967296) none none none)]

/-- Range::gt_range_to_vec delegates to gt_range_to_ge. -/
def Range.gt_range_to_vec (version : Version) : List (Op × Version) :=
  Range.gt_range_to_ge version

/-- Range::mixed_vec_to_stand_vec: expand Tilde/Caret/Le/Gt pairs into
    Ge/Lt pairs; everything else passes through (flat_map). -/
def Range.mixed_vec_to_stand_vec (ranges : List (Op × Version)) : List (Op × Version) :=
  (ranges.map (fun x =>
    match x.1 with
    | Op.Tilde => Range.tilde_range_to_vec x.2
    | Op.Caret => Range.caret_range_to_vec x.2
    | Op.Le => Range.le_range_to_vec x.2
    | Op.Gt => Range.gt_range_to_vec x.2
    | _ => [x])).flatten

/-- The comparator used by Range::sort_vec (`sort_by` with
    `Version::cmp` on the second components), as a non-strict relation. -/
def pairLe (x y : Op × Version) : Prop :=
  Version.cmp x.2 y.2 ≠ Ordering.gt

instance : DecidableRel pairLe := fun x y =>
  inferInstanceAs (Decidable (Version.cmp x.2 y.2 ≠ Ordering.gt))

/-- Range::sort_vec: expand, then stable-sort ascending by version.
    Rust's `sort_by` is a stable sort; a stable sort's output is
    uniquely determined by the comparator and the input order, so the
    stable insertion sort is a faithful model. -/
def Range.sort_vec (ranges : List (Op × Version)) : List (Op × Version) :=
  List.insertionSort pairLe (Range.mixed_vec_to_stand_vec ranges)

/-- Range::separate_ops builds a map from operator to the versions
    paired with it, in list order; this is lookup of one operator's
    group (an absent key gives the empty vector, as `unwrap_or(vec![])`). -/
def Range.separate_ops_get (ranges : List (Op × Version)) (o : Op) : List Version :=
  (ranges.filter (fun x => x.1 == o)).map (fun x => x.2)

/-- Range::from_ver_vec: sort (which expands), group by operator,
    take the first Ge as min and the last Lt as max; Ne pairs become
    `except`, Eq pairs become the include list. -/
def Range.from_ver_vec (ranges : List (Op × Version)) : Range :=
  let sorted := Range.sort_vec ranges
  Range.mk
    (Range.separate_ops_get sorted Op.Ge).head?
    (Range.separate_ops_get sorted Op.Lt).getLast?
    (Range.separate_ops_get sorted Op.Ne)
    (Range.separate_ops_get sorted Op.Eq)

/-- Modelled from the spec: Range::contains is unimplemented (a `todo!()`
    body) in the source.  Spec section 4.3: true iff the version satisfies
    every bound — `>= min` if present, `< max` if present, not in `except` —
    or unconditionally true if in `include`; membership uses range order. -/
def Range.contains (r : Range) (version : Version) : Bool :=
  r.incl.any (fun w => Version.cmp w version == Ordering.eq) ||
  ((match r.min with
    | none => true
    | some m => !(Version.cmp version m == Ordering.lt)) &&
   (match r.max with
    | none => true
    | some M => Version.cmp version M == Ordering.lt) &&
   !(r.except.any (fun w => Version.cmp w version == Ordering.eq)))

/-!
### The PEG grammar of grammer.rs

rust-peg parsing expressions are modelled as functions from the remaining
input to a three-valued result: success with a value and the rest of the
input, ordinary parse failure (which an enclosing ordered choice may
recover from), or a Rust panic (`unwrap` of an `Err`), which aborts the
whole parse and can never be recovered.
-/

/-- Result of running a parsing expression. -/
inductive PRes (α : Type) where
  | ok : α → List Char → PRes α
  | fail : PRes α
  | crash : PRes α
deriving DecidableEq

/-- A parsing expression. -/
def Parser (α : Type) : Type := List Char → PRes α

/-- Sequencing of parsing expressions. -/
def pbind {α β : Type} (p : Parser α) (f : α → Parser β) : Parser β :=
  fun s =>
    match p s with
    | PRes.ok a r => f a r
    | PRes.fail => PRes.fail
    | PRes.crash => PRes.crash

/-- The empty expression, yielding a value. -/
def ppure {α : Type} (a : α) : Parser α := fun s => PRes.ok a s

/-- PEG ordered choice: the second alternative runs from the same start
    only when the first fails; a panic propagates. -/
def porelse {α : Type} (p q : Parser α) : Parser α :=
  fun s =>
    match p s with
    | PRes.ok a r => PRes.ok a r
    | PRes.fail => q s
    | PRes.crash => PRes.crash

/-- Literal matching helper: strip `t` from the front of the input. -/
def matchLit : List Char → List Char → Option (List Char)
  | [], s => some s
  | _ :: _, [] => none
  | t :: ts, c :: cs => if c = t then matchLit ts cs else none

/-- A literal string expression, yielding the matched text. -/
def plit (t : List Char) : Parser (List Char) :=
  fun s =>
    match matchLit t s with
    | some r => PRes.ok t r
    | none => PRes.fail

/-- `e?`: optional expression (never fails). -/
def popt {α : Type} (p : Parser α) : Parser (Option α) :=
  porelse (pbind p (fun a => ppure (some a))) (ppure none)

/-- Greedy split of the input at the first character not satisfying f. -/
def takeWhileC (f : Char → Bool) : List Char → List Char × List Char
  | [] => ([], [])
  | c :: cs =>
    if f c then
      ((c :: (takeWhileC f cs).1), (takeWhileC f cs).2)
    else ([], c :: cs)

/-- `[class]*`: greedy repetition of a character class (never fails). -/
def pstarC (f : Char → Bool) : Parser (List Char) :=
  fun s => PRes.ok (takeWhileC f s).1 (takeWhileC f s).2

/-- `[class]+`: one or more characters of a class. -/
def pplusC (f : Char → Bool) : Parser (List Char) :=
  fun s =>
    match s with
    | [] => PRes.fail
    | c :: cs =>
      if f c then PRes.ok (c :: (takeWhileC f cs).1) (takeWhileC f cs).2
      else PRes.fail

/-- `![_]`: succeed exactly at end of input, consuming nothing. -/
def peof : Parser Unit :=
  fun s =>
    match s with
    | [] => PRes.ok () []
    | _ :: _ => PRes.fail

/-- Digit class of the `num` rule. -/
def isDigitC (c : Char) : Bool := 48 ≤ c.toNat && c.toNat ≤ 57

/-- Character class of the `chars` rule: ASCII letters, digits, `_`, `.`. -/
def isCharsC (c : Char) : Bool :=
  (97 ≤ c.toNat && c.toNat ≤ 122) || (65 ≤ c.toNat && c.toNat ≤ 90) ||
  isDigitC c || c == '_' || c == '.'

/-- Separator class of the `separator` rule. -/
def isSepC (c : Char) : Bool := c == ' ' || c == ',' || c == ';'

/-- Space character class for the literal `" "` repetitions. -/
def isSpaceC (c : Char) : Bool := c == ' '

/-- Case analysis on a parse result: continue on success, yield the
    given result on failure, propagate a panic. -/
def pstep {α β : Type} : PRes α → (α → List Char → PRes β) → PRes β → PRes β
  | PRes.ok a r, f, _ => f a r
  | PRes.fail, _, z => z
  | PRes.crash, _, _ => PRes.crash

theorem pstep_ok {α β : Type} (a : α) (r : List Char)
    (f : α → List Char → PRes β) (z : PRes β) :
    pstep (PRes.ok a r) f z = f a r := rfl

theorem pstep_fail {α β : Type} (f : α → List Char → PRes β) (z : PRes β) :
    pstep PRes.fail f z = z := rfl

theorem pstep_crash {α β : Type} (f : α → List Char → PRes β) (z : PRes β) :
    pstep PRes.crash f z = PRes.crash := rfl

/-- Value of a big-endian decimal digit string (`str::parse`). -/
def digitsToNat (l : List Char) : Nat :=
  l.foldl (fun a c => 10 * a + (c.toNat - 48)) 0

/-- The `num` rule: one or more digits, parsed as a u32; values outside
    the u32 range make `n.parse()` fail, failing the rule. -/
def numR : Parser Nat :=
  fun s =>
    pstep (pplusC isDigitC s)
      (fun ds r =>
        if digitsToNat ds < 4294967296 then PRes.ok (digitsToNat ds) r
        else PRes.fail)
      PRes.fail

/-- The `chars` rule: one or more characters of the token alphabet. -/
def charsR : Parser String :=
  fun s =>
    pstep (pplusC isCharsC s) (fun cs r => PRes.ok (String.mk cs) r) PRes.fail

/-- The `separator` rule: zero or more of space, comma, semicolon. -/
def separatorR : Parser Unit :=
  pbind (pstarC isSepC) (fun _ => ppure ())

/-- The `main` rule: a required major number, then an optional dot, an
    optional minor number, an optional dot, an optional patch number. -/
def mainR : Parser (Nat × Option Nat × Option Nat) :=
  pbind numR (fun M =>
  pbind (popt (plit ['.'])) (fun _ =>
  pbind (popt numR) (fun m =>
  pbind (popt (plit ['.'])) (fun _ =>
  pbind (popt numR) (fun p =>
  ppure (M, m, p))))))

/-- The `extra` rule: a dot then a token. -/
def extraR : Parser String :=
  pbind (plit ['.']) (fun _ => pbind charsR (fun c => ppure c))

/-- The `build` rule: a plus then a token. -/
def buildR : Parser String :=
  pbind (plit ['+']) (fun _ => pbind charsR (fun c => ppure c))

/-- The `pre` rule: a hyphen then a token. -/
def preR : Parser String :=
  pbind (plit ['-']) (fun _ => pbind charsR (fun c => ppure c))

/-- The `afterV` rule: optional pre then optional build then end of
    input, or build then pre then end of input. -/
def afterVR : Parser (Option String × Option String) :=
  porelse
    (pbind (popt preR) (fun p =>
     pbind (popt buildR) (fun b =>
     pbind peof (fun _ => ppure (p, b)))))
    (pbind buildR (fun b =>
     pbind preR (fun p =>
     pbind peof (fun _ => ppure (some p, some b)))))

/-- Modelled from the spec: the grammar's semantic action calls
    `Version::new_w_extra`, which is absent from the source; per the data
    model it constructs a Version from the six components (spec section 3,
    Lifecycle: "constructed only by the grammar"). -/
def Version.new_w_extra (major minor patch : Nat)
    (extra_version pre_release build : Option String) : Version :=
  Version.mk major minor patch extra_version pre_release build

/-- The `version` rule: optional `v`/`V`, optional single space, `main`,
    optional `extra`, then `afterV`; missing minor/patch default to 0. -/
def versionR : Parser Version :=
  pbind (popt (porelse (plit ['v']) (plit ['V']))) (fun _ =>
  pbind (popt (plit [' '])) (fun _ =>
  pbind mainR (fun m =>
  pbind (popt extraR) (fun e =>
  pbind afterVR (fun a =>
  ppure (Version.new_w_extra m.1 (m.2.1.getD 0) (m.2.2.getD 0) e a.1 a.2))))))

/-- The public `parse_version` rule: optional spaces, a version,
    optional spaces, end of input. -/
def parse_version : Parser Version :=
  pbind (pstarC isSpaceC) (fun _ =>
  pbind versionR (fun v =>
  pbind (pstarC isSpaceC) (fun _ =>
  pbind peof (fun _ => ppure v))))

/-- Op::from_str on the matched operator text. -/
def Op.from_str (op : List Char) : Except ParseError Op :=
  if op = ['=', '='] ∨ op = ['='] ∨ op = [] then Except.ok Op.Eq
  else if op = ['!', '='] then Except.ok Op.Ne
  else if op = ['>'] then Except.ok Op.Gt
  else if op = ['<'] then Except.ok Op.Lt
  else if op = ['>', '='] then Except.ok Op.Ge
  else if op = ['<', '='] then Except.ok Op.Le
  else if op = ['~'] then Except.ok Op.Tilde
  else if op = ['^'] then Except.ok Op.Caret
  else Except.error ParseError.range

/-- The token part of the `op` rule: the ordered choice of operator
    literals, a single space, or the empty string. -/
def opTokenR : Parser (List Char) :=
  porelse (plit ['=', '=']) (porelse (plit ['!', '=']) (porelse (plit ['<', '='])
  (porelse (plit ['>', '=']) (porelse (plit ['=']) (porelse (plit ['<'])
  (porelse (plit ['>']) (porelse (plit ['~']) (porelse (plit ['^'])
  (porelse (plit [' ']) (plit []))))))))))

/-- The `op` rule: `Op::from_str(o).unwrap()` — an `Err` from `from_str`
    panics. -/
def opR : Parser Op :=
  fun s =>
    pstep (opTokenR s)
      (fun t r =>
        match Op.from_str t with
        | Except.ok o => PRes.ok o r
        | Except.error _ => PRes.crash)
      PRes.fail

/-- The `range` rule: an operator, spaces, a version, spaces. -/
def rangeR : Parser (Op × Version) :=
  pbind opR (fun o =>
  pbind (pstarC isSpaceC) (fun _ =>
  pbind versionR (fun v =>
  pbind (pstarC isSpaceC) (fun _ =>
  ppure (o, v)))))

/-- Loop of the `**` repetition: repeatedly parse a separator then an
    item, backtracking over the separator and stopping when the item
    fails.  A panic propagates.  Fuel bounds the iteration count; each
    item consumes at least one character, so fuel never runs out. -/
def repSepGo {α : Type} (e : Parser α) (sep : Parser Unit) :
    Nat → List α → Parser (List α)
  | 0, acc => fun s => PRes.ok acc.reverse s
  | fuel + 1, acc => fun s =>
    pstep (sep s)
      (fun _ r1 =>
        pstep (e r1)
          (fun a r2 => repSepGo e sep fuel (a :: acc) r2)
          (PRes.ok acc.reverse s))
      (PRes.ok acc.reverse s)

/-- `e ** sep`: zero or more items separated by separators. -/
def repSep {α : Type} (e : Parser α) (sep : Parser Unit) : Parser (List α) :=
  fun s =>
    pstep (e s) (fun a r => repSepGo e sep (r.length + 1) [a] r)
      (PRes.ok [] s)

/-- The public `parse_range` rule: optional spaces, ranges separated by
    separators, optional spaces, end of input; the collected pairs are
    handed to Range::from_ver_vec. -/
def parse_range : Parser Range :=
  pbind (pstarC isSpaceC) (fun _ =>
  pbind (repSep rangeR separatorR) (fun r =>
  pbind (pstarC isSpaceC) (fun _ =>
  pbind peof (fun _ => ppure (Range.from_ver_vec r)))))

/-! ### Order lemmas for the string and option-string comparisons -/

theorem charToNat_inj {a b : Char} (h : a.toNat = b.toNat) : a = b := by
  cases a; cases b
  simp only [Char.toNat] at h
  congr 1
  exact UInt32.toNat.inj h

theorem strLtL_irrefl : ∀ l : List Char, strLtL l l = false := by
  intro l
  induction l with
  | nil => rfl
  | cons c cs ih =>
    simp only [strLtL]
    have h : ¬ c.toNat < c.toNat := by omega
    simp [h, ih]

theorem strLtL_asymm : ∀ a b : List Char, strLtL a b = true → strLtL b a = false := by
  intro a
  induction a with
  | nil =>
    intro b hb
    cases b with
    | nil => simp [strLtL] at hb
    | cons y ys => simp [strLtL]
  | cons x xs ih =>
    intro b hb
    cases b with
    | nil => simp [strLtL] at hb
    | cons y ys =>
      simp only [strLtL] at hb ⊢
      by_cases h1 : x.toNat < y.toNat
      · have h2 : ¬ y.toNat < x.toNat := by omega
        simp [h1, h2]
      · by_cases h2 : y.toNat < x.toNat
        · simp [h1, h2] at hb
        · simp [h1, h2] at hb ⊢
          exact ih ys hb

theorem strLtL_trans : ∀ a b c : List Char,
    strLtL a b = true → strLtL b c = true → strLtL a c = true := by
  intro a
  induction a with
  | nil =>
    intro b c hab hbc
    cases b with
    | nil => simp [strLtL] at hab
    | cons y ys =>
      cases c with
      | nil => simp [strLtL] at hbc
      | cons z zs => simp [strLtL]
  | cons x xs ih =>
    intro b c hab hbc
    cases b with
    | nil => simp [strLtL] at hab
    | cons y ys =>
      cases c with
      | nil => simp [strLtL] at hbc
      | cons z zs =>
        simp only [strLtL] at hab hbc ⊢
        by_cases h1 : x.toNat < y.toNat <;> by_cases h2 : y.toNat < z.toNat
        · have : x.toNat < z.toNat := by omega
          simp [this]
        · by_cases h3 : z.toNat < y.toNat
          · simp [h2, h3] at hbc
          · have hyz : y.toNat = z.toNat := by omega
            have : x.toNat < z.toNat := by omega
            simp [this]
        · by_cases h3 : y.toNat < x.toNat
          · simp [h1, h3] at hab
          · have hxy : x.toNat = y.toNat := by omega
            have : x.toNat < z.toNat := by omega
            simp [this]
        · by_cases h3 : y.toNat < x.toNat
          · simp [h1, h3] at hab
          · by_cases h4 : z.toNat < y.toNat
            · simp [h2, h4] at hbc
            · have hxy : x.toNat = y.toNat := by omega
              have hyz : y.toNat = z.toNat := by omega
              have hxz1 : ¬ x.toNat < z.toNat := by omega
              have hxz2 : ¬ z.toNat < x.toNat := by omega
              simp [h1, h3] at hab
              simp [h2, h4] at hbc
              simp [hxz1, hxz2]
              exact ih ys zs hab hbc

theorem strLtL_conn : ∀ a b : List Char,
    strLtL a b = false → strLtL b a = false → a = b := by
  intro a
  induction a with
  | nil =>
    intro b hab _
    cases b with
    | nil => rfl
    | cons y ys => simp [strLtL] at hab
  | cons x xs ih =>
    intro b hab hba
    cases b with
    | nil => simp [strLtL] at hba
    | cons y ys =>
      simp only [strLtL] at hab hba
      by_cases h1 : x.toNat < y.toNat
      · simp [h1] at hab
      · by_cases h2 : y.toNat < x.toNat
        · simp [h1, h2] at hab
          simp [h2] at hba
        · simp [h1, h2] at hab
          simp [h1, h2] at hba
          have hxy : x = y := charToNat_inj (by omega)
          rw [hxy, ih ys hab hba]

theorem optStrLt_irrefl : ∀ e : Option String, optStrLt e e = false := by
  intro e
  cases e with
  | none => rfl
  | some s => simpa [optStrLt, strLt] using strLtL_irrefl s.data

theorem optStrLt_asymm : ∀ e f : Option String,
    optStrLt e f = true → optStrLt f e = false := by
  intro e f h
  cases e <;> cases f <;> simp_all [optStrLt, strLt]
  exact strLtL_asymm _ _ h

theorem optStrLt_trans : ∀ e f g : Option String,
    optStrLt e f = true → optStrLt f g = true → optStrLt e g = true := by
  intro e f g hef hfg
  cases e <;> cases f <;> cases g <;> simp_all [optStrLt, strLt]
  exact strLtL_trans _ _ _ hef hfg

theorem optStrLt_conn : ∀ e f : Option String,
    optStrLt e f = false → optStrLt f e = false → e = f := by
  intro e f hef hfe
  cases e with
  | none =>
    cases f with
    | none => rfl
    | some t => simp [optStrLt] at hef
  | some s =>
    cases f with
    | none => simp [optStrLt] at hfe
    | some t =>
      simp only [optStrLt, strLt] at hef hfe
      have hd : s.data = t.data := strLtL_conn _ _ hef hfe
      have hst : s = t := by cases s; cases t; exact congrArg String.mk hd
      rw [hst]

/-! ### Range-order (Version::partial_cmp / Ord::cmp) lemmas -/

theorem partial_cmp_isSome (a b : Version) :
    (Version.partial_cmp a b).isSome = true := by
  unfold Version.partial_cmp
  split_ifs <;> rfl

/-- The comparison key: range order only looks at these four fields. -/
def verKey (v : Version) : Nat × Nat × Nat × Option String :=
  (v.major, v.minor, v.patch, v.extra_version)

theorem cmp_eq_iff (a b : Version) :
    Version.cmp a b = Ordering.eq ↔ verKey a = verKey b := by
  unfold Version.cmp Version.partial_cmp verKey
  split_ifs with h1 h2 h3 h4 h5 h6 h7 h8 <;>
    simp only [Option.getD_some, Prod.mk.injEq]
  · exact ⟨fun h => absurd h (by decide), fun h => by omega⟩
  · exact ⟨fun h => absurd h (by decide), fun h => by omega⟩
  · exact ⟨fun h => absurd h (by decide), fun h => by omega⟩
  · exact ⟨fun h => absurd h (by decide), fun h => by omega⟩
  · exact ⟨fun h => absurd h (by decide), fun h => by omega⟩
  · exact ⟨fun h => absurd h (by decide), fun h => by omega⟩
  · refine ⟨fun h => absurd h (by decide), fun h => ?_⟩
    obtain ⟨k1, k2, k3, k4⟩ := h
    rw [k4, optStrLt_irrefl] at h7
    exact Bool.noConfusion h7
  · refine ⟨fun h => absurd h (by decide), fun h => ?_⟩
    obtain ⟨k1, k2, k3, k4⟩ := h
    rw [← k4, optStrLt_irrefl] at h8
    exact Bool.noConfusion h8
  · refine ⟨fun _ => ⟨by omega, by omega, by omega, ?_⟩, fun _ => trivial⟩
    have e7 : optStrLt a.extra_version b.extra_version = false := by simpa using h7
    have e8 : optStrLt b.extra_version a.extra_version = false := by simpa using h8
    exact optStrLt_conn _ _ e7 e8

theorem cmp_refl (a : Version) : Version.cmp a a = Ordering.eq := by
  rw [cmp_eq_iff]

theorem cmp_lt_iff (a b : Version) :
    Version.cmp a b = Ordering.lt ↔
      (a.major < b.major ∨ (a.major = b.major ∧
        (a.minor < b.minor ∨ (a.minor = b.minor ∧
          (a.patch < b.patch ∨ (a.patch = b.patch ∧
            optStrLt a.extra_version b.extra_version = true)))))) := by
  unfold Version.cmp Version.partial_cmp
  split_ifs with h1 h2 h3 h4 h5 h6 h7 h8 <;>
    simp only [Option.getD_some]
  · exact ⟨fun _ => Or.inl h1, fun _ => trivial⟩
  · refine ⟨fun h => absurd h (by decide), fun h => ?_⟩
    rcases h with h | ⟨k1, h⟩ <;> omega
  · exact ⟨fun _ => Or.inr ⟨by omega, Or.inl h3⟩, fun _ => trivial⟩
  · refine ⟨fun h => absurd h (by decide), fun h => ?_⟩
    rcases h with h | ⟨k1, h | ⟨k2, h⟩⟩ <;> omega
  · exact ⟨fun _ => Or.inr ⟨by omega, Or.inr ⟨by omega, Or.inl h5⟩⟩, fun _ => trivial⟩
  · refine ⟨fun h => absurd h (by decide), fun h => ?_⟩
    rcases h with h | ⟨k1, h | ⟨k2, h | ⟨k3, h⟩⟩⟩ <;> omega
  · exact ⟨fun _ => Or.inr ⟨by omega, Or.inr ⟨by omega, Or.inr ⟨by omega, h7⟩⟩⟩,
      fun _ => trivial⟩
  · refine ⟨fun h => absurd h (by decide), fun h => ?_⟩
    rcases h with h | ⟨k1, h | ⟨k2, h | ⟨k3, h⟩⟩⟩
    · omega
    · omega
    · omega
    · exact absurd h h7
  · refine ⟨fun h => absurd h (by decide), fun h => ?_⟩
    rcases h with h | ⟨k1, h | ⟨k2, h | ⟨k3, h⟩⟩⟩
    · omega
    · omega
    · omega
    · exact absurd h h7

theorem cmp_gt_iff (a b : Version) :
    Version.cmp a b = Ordering.gt ↔ Version.cmp b a = Ordering.lt := by
  have htri : Version.cmp a b = Ordering.gt ↔
      (¬ (Version.cmp a b = Ordering.lt) ∧ ¬ (Version.cmp a b = Ordering.eq)) := by
    cases h : Version.cmp a b <;> decide
  rw [htri, cmp_lt_iff, cmp_eq_iff, cmp_lt_iff]
  unfold verKey
  constructor
  · intro ⟨hnlt, hne⟩
    by_cases k1 : a.major = b.major
    · by_cases k2 : a.minor = b.minor
      · by_cases k3 : a.patch = b.patch
        · refine Or.inr ⟨by omega, Or.inr ⟨by omega, Or.inr ⟨by omega, ?_⟩⟩⟩
          have e1 : optStrLt a.extra_version b.extra_version = false := by
            by_contra hc
            exact hnlt (Or.inr ⟨k1, Or.inr ⟨k2, Or.inr ⟨k3, by simpa using hc⟩⟩⟩)
          by_contra hc
          have e2 : optStrLt b.extra_version a.extra_version = false := by
            simpa using hc
          exact hne (by simp only [Prod.mk.injEq]
                        exact ⟨k1, k2, k3, optStrLt_conn _ _ e1 e2⟩)
        · have : b.patch < a.patch ∨ a.patch < b.patch := by omega
          rcases this with h | h
          · exact Or.inr ⟨by omega, Or.inr ⟨by omega, Or.inl h⟩⟩
          · exact absurd (Or.inr ⟨k1, Or.inr ⟨k2, Or.inl h⟩⟩) hnlt
      · have : b.minor < a.minor ∨ a.minor < b.minor := by omega
        rcases this with h | h
        · exact Or.inr ⟨by omega, Or.inl h⟩
        · exact absurd (Or.inr ⟨k1, Or.inl h⟩) hnlt
    · have : b.major < a.major ∨ a.major < b.major := by omega
      rcases this with h | h
      · exact Or.inl h
      · exact absurd (Or.inl h) hnlt
  · intro h
    constructor
    · intro h'
      rcases h with h | ⟨k1, h | ⟨k2, h | ⟨k3, h⟩⟩⟩ <;>
        rcases h' with h' | ⟨k1', h' | ⟨k2', h' | ⟨k3', h'⟩⟩⟩ <;>
        first
          | omega
          | (rw [optStrLt_asymm _ _ h'] at h; exact Bool.noConfusion h)
    · intro h'
      simp only [Prod.mk.injEq] at h'
      obtain ⟨k1, k2, k3, k4⟩ := h'
      rcases h with h | ⟨m1, h | ⟨m2, h | ⟨m3, h⟩⟩⟩
      · omega
      · omega
      · omega
      · rw [k4, optStrLt_irrefl] at h
        exact Bool.noConfusion h

theorem cmp_lt_trans {a b c : Version} (hab : Version.cmp a b = Ordering.lt)
    (hbc : Version.cmp b c = Ordering.lt) : Version.cmp a c = Ordering.lt := by
  rw [cmp_lt_iff] at hab hbc ⊢
  rcases hab with h | ⟨e1, h⟩
  · rcases hbc with h' | ⟨e1', _⟩
    · exact Or.inl (by omega)
    · exact Or.inl (by omega)
  · rcases hbc with h' | ⟨e1', h'⟩
    · exact Or.inl (by omega)
    · refine Or.inr ⟨by omega, ?_⟩
      rcases h with h | ⟨e2, h⟩
      · rcases h' with h' | ⟨e2', _⟩
        · exact Or.inl (by omega)
        · exact Or.inl (by omega)
      · rcases h' with h' | ⟨e2', h'⟩
        · exact Or.inl (by omega)
        · refine Or.inr ⟨by omega, ?_⟩
          rcases h with h | ⟨e3, h⟩
          · rcases h' with h' | ⟨e3', _⟩
            · exact Or.inl (by omega)
            · exact Or.inl (by omega)
          · rcases h' with h' | ⟨e3', h'⟩
            · exact Or.inl (by omega)
            · exact Or.inr ⟨by omega, optStrLt_trans _ _ _ h h'⟩

theorem cmp_eq_symm {a b : Version} (h : Version.cmp a b = Ordering.eq) :
    Version.cmp b a = Ordering.eq := by
  rw [cmp_eq_iff] at h ⊢
  exact h.symm

theorem cmp_eq_trans {a b c : Version} (hab : Version.cmp a b = Ordering.eq)
    (hbc : Version.cmp b c = Ordering.eq) : Version.cmp a c = Ordering.eq := by
  rw [cmp_eq_iff] at hab hbc ⊢
  exact hab.trans hbc

theorem cmp_congr_left {a b c : Version} (hab : Version.cmp a b = Ordering.eq) :
    Version.cmp a c = Version.cmp b c := by
  rw [cmp_eq_iff] at hab
  unfold Version.cmp Version.partial_cmp
  unfold verKey at hab
  have h1 : a.major = b.major := congrArg Prod.fst hab
  have h2 : a.minor = b.minor := congrArg (fun x => x.2.1) hab
  have h3 : a.patch = b.patch := congrArg (fun x => x.2.2.1) hab
  have h4 : a.extra_version = b.extra_version := congrArg (fun x => x.2.2.2) hab
  rw [h1, h2, h3, h4]

theorem cmp_congr_right {a b c : Version} (hbc : Version.cmp b c = Ordering.eq) :
    Version.cmp a b = Version.cmp a c := by
  rw [cmp_eq_iff] at hbc
  unfold Version.cmp Version.partial_cmp
  unfold verKey at hbc
  have h1 : b.major = c.major := congrArg Prod.fst hbc
  have h2 : b.minor = c.minor := congrArg (fun x => x.2.1) hbc
  have h3 : b.patch = c.patch := congrArg (fun x => x.2.2.1) hbc
  have h4 : b.extra_version = c.extra_version := congrArg (fun x => x.2.2.2) hbc
  rw [h1, h2, h3, h4]

theorem cmp_trichotomy (a b : Version) :
    Version.cmp a b = Ordering.lt ∨ Version.cmp a b = Ordering.eq ∨
      Version.cmp a b = Ordering.gt := by
  cases h : Version.cmp a b
  · exact Or.inl rfl
  · exact Or.inr (Or.inl rfl)
  · exact Or.inr (Or.inr rfl)

theorem cmp_eq_lt_trans {a b c : Version} (hab : Version.cmp a b = Ordering.eq)
    (hbc : Version.cmp b c = Ordering.lt) : Version.cmp a c = Ordering.lt := by
  rw [cmp_congr_left hab]
  exact hbc

theorem cmp_lt_eq_trans {a b c : Version} (hab : Version.cmp a b = Ordering.lt)
    (hbc : Version.cmp b c = Ordering.eq) : Version.cmp a c = Ordering.lt := by
  rw [← cmp_congr_right hbc]
  exact hab

instance : IsTrans (Op × Version) pairLe := by
  constructor
  intro x y z hxy hyz
  unfold pairLe at hxy hyz ⊢
  rcases cmp_trichotomy x.2 y.2 with h1 | h1 | h1
  · rcases cmp_trichotomy y.2 z.2 with h2 | h2 | h2
    · rw [cmp_lt_trans h1 h2]; decide
    · rw [cmp_lt_eq_trans h1 h2]; decide
    · exact absurd h2 hyz
  · rcases cmp_trichotomy y.2 z.2 with h2 | h2 | h2
    · rw [cmp_eq_lt_trans h1 h2]; decide
    · rw [cmp_eq_trans h1 h2]; decide
    · exact absurd h2 hyz
  · exact absurd h1 hxy

instance : IsTotal (Op × Version) pairLe := by
  constructor
  intro x y
  unfold pairLe
  by_cases h : Version.cmp x.2 y.2 = Ordering.gt
  · right
    rw [(cmp_gt_iff x.2 y.2).mp h]
    decide
  · exact Or.inl h

/-- C2: the precedence-order check as specified — strict lexicographic
    priority, which would NOT conclude that 1.2.0 is older than 1.1.5.
    The code's is_older_than is a component-wise OR of independent
    less-than checks and concludes exactly that at this failing input:
    it returns true for (1.2.0, 1.1.5) because patch 0 < patch 5,
    contradicting the claim. -/
theorem is_older_than_at_failing_input :
    Version.is_older_than (Version.mk 1 2 0 none none none)
      (Version.mk 1 1 5 none none none) = true := by decide

/-- C8: range order (Version::cmp) is a total (pre)order on versions
    determined lexicographically by major, minor, patch, extra_version
    (absent extra before present), ignoring pre_release and build: for
    all a b exactly one of lt/eq/gt holds, gt is the converse of lt,
    lt and eq are transitive and compatible, versions differing only in
    pre_release/build compare equal, and an absent extra_version sorts
    before any present one. -/
theorem range_order_is_total_order :
    (∀ a b : Version,
      (Version.cmp a b = Ordering.lt ∧ ¬ Version.cmp a b = Ordering.eq ∧
        ¬ Version.cmp a b = Ordering.gt) ∨
      (¬ Version.cmp a b = Ordering.lt ∧ Version.cmp a b = Ordering.eq ∧
        ¬ Version.cmp a b = Ordering.gt) ∨
      (¬ Version.cmp a b = Ordering.lt ∧ ¬ Version.cmp a b = Ordering.eq ∧
        Version.cmp a b = Ordering.gt)) ∧
    (∀ a b : Version,
      Version.cmp a b = Ordering.gt ↔ Version.cmp b a = Ordering.lt) ∧
    (∀ a b c : Version, Version.cmp a b = Ordering.lt →
      Version.cmp b c = Ordering.lt → Version.cmp a c = Ordering.lt) ∧
    (∀ a b c : Version, Version.cmp a b = Ordering.eq →
      Version.cmp b c = Ordering.eq → Version.cmp a c = Ordering.eq) ∧
    (∀ a b c : Version, Version.cmp a b = Ordering.eq →
      Version.cmp b c = Ordering.lt → Version.cmp a c = Ordering.lt) ∧
    (∀ a b c : Version, Version.cmp a b = Ordering.lt →
      Version.cmp b c = Ordering.eq → Version.cmp a c = Ordering.lt) ∧
    (∀ M m p e pr1 b1 pr2 b2, Version.cmp (Version.mk M m p e pr1 b1)
      (Version.mk M m p e pr2 b2) = Ordering.eq) ∧
    (∀ M m p pr1 b1 s pr2 b2, Version.cmp (Version.mk M m p none pr1 b1)
      (Version.mk M m p (some s) pr2 b2) = Ordering.lt) := by
  refine ⟨?_, cmp_gt_iff, fun _ _ _ => cmp_lt_trans, fun _ _ _ => cmp_eq_trans,
    fun _ _ _ => cmp_eq_lt_trans, fun _ _ _ => cmp_lt_eq_trans, ?_, ?_⟩
  · intro a b
    rcases h : Version.cmp a b
    · exact Or.inl ⟨rfl, by simp [h], by simp [h]⟩
    · exact Or.inr (Or.inl ⟨by simp [h], rfl, by simp [h]⟩)
    · exact Or.inr (Or.inr ⟨by simp [h], by simp [h], rfl⟩)
  · intro M m p e pr1 b1 pr2 b2
    rw [cmp_eq_iff]
    rfl
  · intro M m p pr1 b1 s pr2 b2
    rw [cmp_lt_iff]
    exact Or.inr ⟨rfl, Or.inr ⟨rfl, Or.inr ⟨rfl, rfl⟩⟩⟩

/-- Witness for C8: the transitivity component applied at concrete
    versions 1.0.0 < 2.0.0 < 3.0.0. -/
theorem range_order_is_total_order_witness :
    Version.cmp (Version.mk 1 0 0 none none none)
      (Version.mk 3 0 0 none none none) = Ordering.lt :=
  range_order_is_total_order.2.2.1 (Version.mk 1 0 0 none none none)
    (Version.mk 2 0 0 none none none) (Version.mk 3 0 0 none none none)
    (by decide) (by decide)

theorem tilde_bounded {v : Version} (h : v.minor < 4294967295) :
    Range.tilde_range_to_vec v =
      [(Op.Ge, v), (Op.Lt, Version.mk v.major (v.minor + 1) 0 none none none)] := by
  unfold Range.tilde_range_to_vec
  rw [Nat.mod_eq_of_lt (by omega)]

theorem caret_bounded {v : Version} (h : v.major < 4294967295) :
    Range.caret_range_to_vec v =
      [(Op.Ge, v), (Op.Lt, Version.mk (v.major + 1) 0 0 none none none)] := by
  unfold Range.caret_range_to_vec
  rw [Nat.mod_eq_of_lt (by omega)]

theorem mixed_singleton (o : Op) (v : Version) :
    Range.mixed_vec_to_stand_vec [(o, v)] =
      (match o with
       | Op.Tilde => Range.tilde_range_to_vec v
       | Op.Caret => Range.caret_range_to_vec v
       | Op.Le => Range.le_range_to_vec v
       | Op.Gt => Range.gt_range_to_vec v
       | o => [(o, v)]) := by
  cases o <;>
    simp [Range.mixed_vec_to_stand_vec]

/-- Counterexample to C6: the bump is u32 arithmetic; at a component
    value of u32::MAX = 4294967295 — itself accepted by the parser — the
    source wraps to 0 (release; debug builds panic), so the boundary is
    NOT version(major, minor+1, 0) (resp. version(major+1, 0, 0)): at
    ~1.4294967295 the code synthesizes the Lt bound 1.0.0, not
    1.4294967296.0, and at ^4294967295 it synthesizes 0.0.0. -/
theorem tilde_caret_expansion_wrap :
    Range.tilde_range_to_vec (Version.mk 1 4294967295 0 none none none) =
      [(Op.Ge, Version.mk 1 4294967295 0 none none none),
       (Op.Lt, Version.mk 1 0 0 none none none)] ∧
    Range.tilde_range_to_vec (Version.mk 1 4294967295 0 none none none) ≠
      [(Op.Ge, Version.mk 1 4294967295 0 none none none),
       (Op.Lt, Version.mk 1 (4294967295 + 1) 0 none none none)] ∧
    Range.caret_range_to_vec (Version.mk 4294967295 0 0 none none none) =
      [(Op.Ge, Version.mk 4294967295 0 0 none none none),
       (Op.Lt, Version.mk 0 0 0 none none none)] ∧
    Range.caret_range_to_vec (Version.mk 4294967295 0 0 none none none) ≠
      [(Op.Ge, Version.mk 4294967295 0 0 none none none),
       (Op.Lt, Version.mk (4294967295 + 1) 0 0 none none none)] := by
  refine ⟨rfl, ?_, rfl, ?_⟩ <;> decide

/-- C6 amended: for every version whose bumped component is below
    u32::MAX (so the u32 increment does not overflow), expansion
    rewrites `(Tilde, v)` to exactly `[(Ge, v), (Lt, (major, minor+1,
    0))]` and `(Caret, v)` to exactly `[(Ge, v), (Lt, (major+1, 0,
    0))]`, the synthesized boundary carrying no extra, pre-release, or
    build component. -/
theorem tilde_caret_expansion :
    (∀ v : Version, v.minor < 4294967295 → Range.tilde_range_to_vec v =
      [(Op.Ge, v), (Op.Lt, Version.mk v.major (v.minor + 1) 0 none none none)]) ∧
    (∀ v : Version, v.major < 4294967295 → Range.caret_range_to_vec v =
      [(Op.Ge, v), (Op.Lt, Version.mk (v.major + 1) 0 0 none none none)]) ∧
    (∀ v : Version, v.minor < 4294967295 →
      Range.mixed_vec_to_stand_vec [(Op.Tilde, v)] =
      [(Op.Ge, v), (Op.Lt, Version.mk v.major (v.minor + 1) 0 none none none)]) ∧
    (∀ v : Version, v.major < 4294967295 →
      Range.mixed_vec_to_stand_vec [(Op.Caret, v)] =
      [(Op.Ge, v), (Op.Lt, Version.mk (v.major + 1) 0 0 none none none)]) := by
  refine ⟨fun v h => tilde_bounded h, fun v h => caret_bounded h,
    fun v h => ?_, fun v h => ?_⟩
  · rw [mixed_singleton]
    exact tilde_bounded h
  · rw [mixed_singleton]
    exact caret_bounded h

/-- Witness for C6 amended at ~1.2.3 and ^1.2.3. -/
theorem tilde_caret_expansion_witness :
    Range.tilde_range_to_vec (Version.mk 1 2 3 none none none) =
      [(Op.Ge, Version.mk 1 2 3 none none none),
       (Op.Lt, Version.mk 1 3 0 none none none)] ∧
    Range.caret_range_to_vec (Version.mk 1 2 3 none none none) =
      [(Op.Ge, Version.mk 1 2 3 none none none),
       (Op.Lt, Version.mk 2 0 0 none none none)] :=
  ⟨tilde_caret_expansion.1 (Version.mk 1 2 3 none none none) (by decide),
   tilde_caret_expansion.2.1 (Version.mk 1 2 3 none none none) (by decide)⟩

theorem le_bounded {v : Version} (h : v.patch < 4294967295) :
    Range.le_range_to_lt v =
      [(Op.Lt, Version.mk v.major v.minor (v.patch + 1) none none none)] := by
  unfold Range.le_range_to_lt
  rw [Nat.mod_eq_of_lt (by omega)]

theorem gt_bounded {v : Version} (h : v.patch < 4294967295) :
    Range.gt_range_to_ge v =
      [(Op.Ge, Version.mk v.major v.minor (v.patch + 1) none none none)] := by
  unfold Range.gt_range_to_ge
  rw [Nat.mod_eq_of_lt (by omega)]

/-- Counterexample to C7: the bump is u32 arithmetic; at patch =
    u32::MAX = 4294967295 — itself accepted by the parser — the source
    wraps to 0 (release; debug builds panic), so `(Le, v)` does NOT
    rewrite to `[(Lt, (major, minor, patch+1))]`: at <=1.2.4294967295
    the code synthesizes <1.2.0, and at >1.2.4294967295 it synthesizes
    >=1.2.0. -/
theorem le_gt_expansion_wrap :
    Range.le_range_to_lt (Version.mk 1 2 4294967295 none none none) =
      [(Op.Lt, Version.mk 1 2 0 none none none)] ∧
    Range.le_range_to_lt (Version.mk 1 2 4294967295 none none none) ≠
      [(Op.Lt, Version.mk 1 2 (4294967295 + 1) none none none)] ∧
    Range.gt_range_to_ge (Version.mk 1 2 4294967295 none none none) =
      [(Op.Ge, Version.mk 1 2 0 none none none)] ∧
    Range.gt_range_to_ge (Version.mk 1 2 4294967295 none none none) ≠
      [(Op.Ge, Version.mk 1 2 (4294967295 + 1) none none none)] := by
  refine ⟨rfl, ?_, rfl, ?_⟩ <;> decide

/-- C7 amended: for every version whose patch is below u32::MAX (so the
    u32 increment does not overflow), expansion rewrites `(Le, v)` to
    exactly `[(Lt, (major, minor, patch+1))]` and `(Gt, v)` to exactly
    `[(Ge, (major, minor, patch+1))]`; consequently `<=1.2.3` expands to
    the same constraint list as `<1.2.4` and `>1.2.3` to the same list
    as `>=1.2.4`, and the resulting Ranges coincide. -/
theorem le_gt_expansion :
    (∀ v : Version, v.patch < 4294967295 → Range.le_range_to_lt v =
      [(Op.Lt, Version.mk v.major v.minor (v.patch + 1) none none none)]) ∧
    (∀ v : Version, v.patch < 4294967295 → Range.gt_range_to_ge v =
      [(Op.Ge, Version.mk v.major v.minor (v.patch + 1) none none none)]) ∧
    (∀ v : Version, v.patch < 4294967295 →
      Range.mixed_vec_to_stand_vec [(Op.Le, v)] =
      Range.mixed_vec_to_stand_vec
        [(Op.Lt, Version.mk v.major v.minor (v.patch + 1) none none none)]) ∧
    (∀ v : Version, v.patch < 4294967295 →
      Range.mixed_vec_to_stand_vec [(Op.Gt, v)] =
      Range.mixed_vec_to_stand_vec
        [(Op.Ge, Version.mk v.major v.minor (v.patch + 1) none none none)]) ∧
    Range.from_ver_vec [(Op.Le, Version.mk 1 2 3 none none none)] =
      Range.from_ver_vec [(Op.Lt, Version.mk 1 2 4 none none none)] ∧
    Range.from_ver_vec [(Op.Gt, Version.mk 1 2 3 none none none)] =
      Range.from_ver_vec [(Op.Ge, Version.mk 1 2 4 none none none)] := by
  refine ⟨fun v h => le_bounded h, fun v h => gt_bounded h,
    fun v h => ?_, fun v h => ?_, rfl, rfl⟩
  · rw [mixed_singleton, mixed_singleton]
    exact le_bounded h
  · rw [mixed_singleton, mixed_singleton]
    exact gt_bounded h

/-- Witness for C7 amended at <=1.2.3 and >1.2.3. -/
theorem le_gt_expansion_witness :
    Range.le_range_to_lt (Version.mk 1 2 3 none none none) =
      [(Op.Lt, Version.mk 1 2 4 none none none)] ∧
    Range.gt_range_to_ge (Version.mk 1 2 3 none none none) =
      [(Op.Ge, Version.mk 1 2 4 none none none)] :=
  ⟨le_gt_expansion.1 (Version.mk 1 2 3 none none none) (by decide),
   le_gt_expansion.2.1 (Version.mk 1 2 3 none none none) (by decide)⟩

/-- C5: the Range built from `>=1.0.0, <2.0.0, !=1.5.0` contains 1.4.0
    and rejects 1.5.0 and 2.0.0 (Range::contains modelled from the spec,
    being a `todo!()` in the source). -/
theorem contains_multi_constraint :
    (Range.from_ver_vec [(Op.Ge, Version.mk 1 0 0 none none none),
        (Op.Lt, Version.mk 2 0 0 none none none),
        (Op.Ne, Version.mk 1 5 0 none none none)]).contains
      (Version.mk 1 4 0 none none none) = true ∧
    (Range.from_ver_vec [(Op.Ge, Version.mk 1 0 0 none none none),
        (Op.Lt, Version.mk 2 0 0 none none none),
        (Op.Ne, Version.mk 1 5 0 none none none)]).contains
      (Version.mk 1 5 0 none none none) = false ∧
    (Range.from_ver_vec [(Op.Ge, Version.mk 1 0 0 none none none),
        (Op.Lt, Version.mk 2 0 0 none none none),
        (Op.Ne, Version.mk 1 5 0 none none none)]).contains
      (Version.mk 2 0 0 none none none) = false := by
  decide

/-- Counterexample to C3: the allegedly malformed input "1..2" is in
    fact accepted by parse_version, yielding version 1.0.2 (each dot and
    numeral of major.minor.patch is independently optional in the
    grammar's main rule), not a parse failure. -/
theorem one_dot_dot_two_parses :
    parse_version ("1..2".data) =
      PRes.ok (Version.mk 1 0 2 none none none) [] := by
  decide

/-- C3 amended: "abc" and "=>1.0" fail both parsers, but "1..2" is
    accepted (as 1.0.2 by parse_version, and as the exact-match range of
    1.0.2 by parse_range). -/
theorem malformed_inputs_behavior :
    parse_version ("abc".data) = PRes.fail ∧
    parse_range ("abc".data) = PRes.fail ∧
    parse_version ("=>1.0".data) = PRes.fail ∧
    parse_range ("=>1.0".data) = PRes.fail ∧
    parse_version ("1..2".data) =
      PRes.ok (Version.mk 1 0 2 none none none) [] ∧
    parse_range ("1..2".data) =
      PRes.ok (Range.mk none none [] [Version.mk 1 0 2 none none none]) [] := by
  decide

/-- C4: parse_version accepts leading whitespace, but REJECTS trailing
    whitespace: the end-of-input lookahead inside the afterV rule makes
    the trailing space repetition of the parse_version rule dead code,
    so "1.0.0 " fails although "1.0.0" and " 1.0.0" parse. -/
theorem trailing_whitespace_rejected :
    parse_version ("1.0.0".data) =
      PRes.ok (Version.mk 1 0 0 none none none) [] ∧
    parse_version (" 1.0.0".data) =
      PRes.ok (Version.mk 1 0 0 none none none) [] ∧
    parse_version ("1.0.0 ".data) = PRes.fail := by
  decide

/-- Counterexample to C1: for the list `>=1.0.0, >=1.5.0, <1.8.0,
    <2.0.0`, from_ver_vec picks min = 1.0.0 — the MINIMUM of the Ge
    versions, strictly below the maximum Ge version 1.5.0 — and
    max = 2.0.0 — the MAXIMUM of the Lt versions, strictly above the
    minimum Lt version 1.8.0 — refuting the claimed max-of-Ge /
    min-of-Lt policy. -/
theorem from_ver_vec_bounds_at_concrete_input :
    (Range.from_ver_vec [(Op.Ge, Version.mk 1 0 0 none none none),
        (Op.Ge, Version.mk 1 5 0 none none none),
        (Op.Lt, Version.mk 1 8 0 none none none),
        (Op.Lt, Version.mk 2 0 0 none none none)]).min =
      some (Version.mk 1 0 0 none none none) ∧
    (Range.from_ver_vec [(Op.Ge, Version.mk 1 0 0 none none none),
        (Op.Ge, Version.mk 1 5 0 none none none),
        (Op.Lt, Version.mk 1 8 0 none none none),
        (Op.Lt, Version.mk 2 0 0 none none none)]).max =
      some (Version.mk 2 0 0 none none none) ∧
    Version.cmp (Version.mk 1 0 0 none none none)
      (Version.mk 1 5 0 none none none) = Ordering.lt ∧
    Version.cmp (Version.mk 1 8 0 none none none)
      (Version.mk 2 0 0 none none none) = Ordering.lt := by
  decide

theorem pairLe_refl (x : Op × Version) : pairLe x x := by
  unfold pairLe
  rw [cmp_refl]
  decide

theorem pairwise_getLast_le {α : Type} {R : α → α → Prop} (hrefl : ∀ a, R a a) :
    ∀ (t : List α) (a : α), List.Pairwise R (a :: t) →
      ∃ m, (a :: t).getLast? = some m ∧ m ∈ a :: t ∧ ∀ x ∈ a :: t, R x m := by
  intro t
  induction t with
  | nil =>
    intro a _
    refine ⟨a, by simp, List.mem_cons_self a [], ?_⟩
    intro x hx
    rcases List.mem_cons.mp hx with rfl | h
    · exact hrefl x
    · cases h
  | cons b t' ih =>
    intro a hp
    obtain ⟨m, hl, hm, hall⟩ := ih b hp.of_cons
    refine ⟨m, ?_, List.mem_cons_of_mem a hm, ?_⟩
    · rw [List.getLast?_cons_cons]
      exact hl
    · intro x hx
      rcases List.mem_cons.mp hx with rfl | hx'
      · exact List.rel_of_pairwise_cons hp hm
      · exact hall x hx'

/-- C1 amended: from_ver_vec takes, under range order, the MINIMUM of
    the Ge versions of the expanded list as min (not the maximum) and
    the MAXIMUM of the Lt versions as max (not the minimum); the chosen
    bound is itself one of the corresponding pairs of the expanded
    list. -/
theorem from_ver_vec_min_max (l : List (Op × Version)) :
    ((∃ p ∈ Range.mixed_vec_to_stand_vec l, p.1 = Op.Ge) →
      ∃ m, (Range.from_ver_vec l).min = some m ∧
        (Op.Ge, m) ∈ Range.mixed_vec_to_stand_vec l ∧
        ∀ p ∈ Range.mixed_vec_to_stand_vec l, p.1 = Op.Ge →
          Version.cmp m p.2 ≠ Ordering.gt) ∧
    ((∃ p ∈ Range.mixed_vec_to_stand_vec l, p.1 = Op.Lt) →
      ∃ M, (Range.from_ver_vec l).max = some M ∧
        (Op.Lt, M) ∈ Range.mixed_vec_to_stand_vec l ∧
        ∀ p ∈ Range.mixed_vec_to_stand_vec l, p.1 = Op.Lt →
          Version.cmp p.2 M ≠ Ordering.gt) := by
  have hperm : (Range.sort_vec l).Perm (Range.mixed_vec_to_stand_vec l) :=
    List.perm_insertionSort pairLe _
  have hsorted : List.Pairwise pairLe (Range.sort_vec l) :=
    List.sorted_insertionSort pairLe _
  constructor
  · rintro ⟨p, hpE, hpGe⟩
    have hpS : p ∈ Range.sort_vec l := hperm.mem_iff.mpr hpE
    have hpF : p ∈ (Range.sort_vec l).filter (fun x => x.1 == Op.Ge) :=
      List.mem_filter.mpr ⟨hpS, by simp [hpGe]⟩
    obtain ⟨q, t, hqt⟩ :
        ∃ q t, (Range.sort_vec l).filter (fun x => x.1 == Op.Ge) = q :: t := by
      cases hF : (Range.sort_vec l).filter (fun x => x.1 == Op.Ge) with
      | nil => rw [hF] at hpF; cases hpF
      | cons q t => exact ⟨q, t, rfl⟩
    have hqF : q ∈ (Range.sort_vec l).filter (fun x => x.1 == Op.Ge) := by
      rw [hqt]
      exact List.mem_cons_self q t
    have hqS : q ∈ Range.sort_vec l := List.mem_of_mem_filter hqF
    have hq1 : q.1 = Op.Ge := by
      have := List.of_mem_filter hqF
      simpa using this
    have hqpair : q = (Op.Ge, q.2) := by
      rw [← hq1]
    refine ⟨q.2, ?_, ?_, ?_⟩
    · simp only [Range.from_ver_vec, Range.separate_ops_get]
      rw [hqt]
      rfl
    · rw [← hqpair]
      exact hperm.mem_iff.mp hqS
    · intro p' hp'E hp'Ge
      have hp'F : p' ∈ (Range.sort_vec l).filter (fun x => x.1 == Op.Ge) :=
        List.mem_filter.mpr ⟨hperm.mem_iff.mpr hp'E, by simp [hp'Ge]⟩
      have hPW : List.Pairwise pairLe
          ((Range.sort_vec l).filter (fun x => x.1 == Op.Ge)) :=
        hsorted.filter _
      rw [hqt] at hPW hp'F
      rcases List.mem_cons.mp hp'F with rfl | hp't
      · rw [cmp_refl]
        decide
      · exact List.rel_of_pairwise_cons hPW hp't
  · rintro ⟨p, hpE, hpLt⟩
    have hpS : p ∈ Range.sort_vec l := hperm.mem_iff.mpr hpE
    have hpF : p ∈ (Range.sort_vec l).filter (fun x => x.1 == Op.Lt) :=
      List.mem_filter.mpr ⟨hpS, by simp [hpLt]⟩
    obtain ⟨q, t, hqt⟩ :
        ∃ q t, (Range.sort_vec l).filter (fun x => x.1 == Op.Lt) = q :: t := by
      cases hF : (Range.sort_vec l).filter (fun x => x.1 == Op.Lt) with
      | nil => rw [hF] at hpF; cases hpF
      | cons q t => exact ⟨q, t, rfl⟩
    have hPW : List.Pairwise pairLe
        ((Range.sort_vec l).filter (fun x => x.1 == Op.Lt)) :=
      hsorted.filter _
    rw [hqt] at hPW
    obtain ⟨m, hlast, hmem, hall⟩ := pairwise_getLast_le pairLe_refl t q hPW
    have hmF : m ∈ (Range.sort_vec l).filter (fun x => x.1 == Op.Lt) := by
      rw [hqt]
      exact hmem
    have hmS : m ∈ Range.sort_vec l := List.mem_of_mem_filter hmF
    have hm1 : m.1 = Op.Lt := by
      have := List.of_mem_filter hmF
      simpa using this
    have hmpair : m = (Op.Lt, m.2) := by
      rw [← hm1]
    refine ⟨m.2, ?_, ?_, ?_⟩
    · simp only [Range.from_ver_vec, Range.separate_ops_get]
      rw [hqt, List.getLast?_map, hlast]
      rfl
    · rw [← hmpair]
      exact hperm.mem_iff.mp hmS
    · intro p' hp'E hp'Lt
      have hp'F : p' ∈ (Range.sort_vec l).filter (fun x => x.1 == Op.Lt) :=
        List.mem_filter.mpr ⟨hperm.mem_iff.mpr hp'E, by simp [hp'Lt]⟩
      rw [hqt] at hp'F
      exact hall p' hp'F

/-- Witness for C1 amended: at the concrete list `>=1.0.0, >=1.5.0,
    <1.8.0, <2.0.0` the theorem produces min 1.0.0 and max 2.0.0. -/
theorem from_ver_vec_min_max_witness :
    ∃ m, (Range.from_ver_vec [(Op.Ge, Version.mk 1 0 0 none none none),
        (Op.Ge, Version.mk 1 5 0 none none none),
        (Op.Lt, Version.mk 1 8 0 none none none),
        (Op.Lt, Version.mk 2 0 0 none none none)]).min = some m ∧
      (Op.Ge, m) ∈ Range.mixed_vec_to_stand_vec
        [(Op.Ge, Version.mk 1 0 0 none none none),
         (Op.Ge, Version.mk 1 5 0 none none none),
         (Op.Lt, Version.mk 1 8 0 none none none),
         (Op.Lt, Version.mk 2 0 0 none none none)] ∧
      ∀ p ∈ Range.mixed_vec_to_stand_vec
        [(Op.Ge, Version.mk 1 0 0 none none none),
         (Op.Ge, Version.mk 1 5 0 none none none),
         (Op.Lt, Version.mk 1 8 0 none none none),
         (Op.Lt, Version.mk 2 0 0 none none none)], p.1 = Op.Ge →
        Version.cmp m p.2 ≠ Ordering.gt :=
  (from_ver_vec_min_max
    [(Op.Ge, Version.mk 1 0 0 none none none),
     (Op.Ge, Version.mk 1 5 0 none none none),
     (Op.Lt, Version.mk 1 8 0 none none none),
     (Op.Lt, Version.mk 2 0 0 none none none)]).1
    ⟨(Op.Ge, Version.mk 1 0 0 none none none), by decide, rfl⟩

/-!
### Absence of panics in the public parsers

A parsing expression "cannot crash" when no input makes it return the
panic outcome.  The only two panic sites of the source are the `unwrap`
in the `op` rule's action and the `unwrap` in `Ord::cmp`.
-/

/-- The expression never returns the panic outcome. -/
def NoCrash {α : Type} (p : Parser α) : Prop := ∀ s, p s ≠ PRes.crash

theorem ppure_nc {α : Type} (a : α) : NoCrash (ppure a) := by
  intro s h
  exact PRes.noConfusion h

theorem pbind_nc {α β : Type} {p : Parser α} {f : α → Parser β}
    (hp : NoCrash p) (hf : ∀ a, NoCrash (f a)) : NoCrash (pbind p f) := by
  intro s h
  unfold pbind at h
  cases hps : p s with
  | ok a r => rw [hps] at h; exact hf a r h
  | fail => rw [hps] at h; exact PRes.noConfusion h
  | crash => exact hp s hps

theorem porelse_nc {α : Type} {p q : Parser α}
    (hp : NoCrash p) (hq : NoCrash q) : NoCrash (porelse p q) := by
  intro s h
  unfold porelse at h
  cases hps : p s with
  | ok a r => rw [hps] at h; exact PRes.noConfusion h
  | fail => rw [hps] at h; exact hq s h
  | crash => exact hp s hps

theorem plit_nc (t : List Char) : NoCrash (plit t) := by
  intro s h
  unfold plit at h
  cases hm : matchLit t s <;> rw [hm] at h <;> exact PRes.noConfusion h

theorem popt_nc {α : Type} {p : Parser α} (hp : NoCrash p) : NoCrash (popt p) :=
  porelse_nc (pbind_nc hp (fun a => ppure_nc (some a))) (ppure_nc none)

theorem pstarC_nc (f : Char → Bool) : NoCrash (pstarC f) := by
  intro s h
  exact PRes.noConfusion h

theorem pplusC_nc (f : Char → Bool) : NoCrash (pplusC f) := by
  intro s h
  unfold pplusC at h
  cases s with
  | nil => exact PRes.noConfusion h
  | cons c cs =>
    by_cases hc : f c = true
    · simp [hc] at h
    · simp [hc] at h

theorem peof_nc : NoCrash peof := by
  intro s h
  unfold peof at h
  cases s with
  | nil => exact PRes.noConfusion h
  | cons c cs => exact PRes.noConfusion h

theorem numR_nc : NoCrash numR := by
  intro s h
  unfold numR at h
  cases hp : pplusC isDigitC s with
  | ok ds r =>
    rw [hp, pstep_ok] at h
    by_cases hn : digitsToNat ds < 4294967296
    · simp [hn] at h
    · simp [hn] at h
  | fail => rw [hp, pstep_fail] at h; exact PRes.noConfusion h
  | crash => exact pplusC_nc isDigitC s hp

theorem charsR_nc : NoCrash charsR := by
  intro s h
  unfold charsR at h
  cases hp : pplusC isCharsC s with
  | ok cs r => rw [hp, pstep_ok] at h; exact PRes.noConfusion h
  | fail => rw [hp, pstep_fail] at h; exact PRes.noConfusion h
  | crash => exact pplusC_nc isCharsC s hp

theorem separatorR_nc : NoCrash separatorR :=
  pbind_nc (pstarC_nc isSepC) (fun _ => ppure_nc ())

theorem mainR_nc : NoCrash mainR :=
  pbind_nc numR_nc (fun _ =>
  pbind_nc (popt_nc (plit_nc ['.'])) (fun _ =>
  pbind_nc (popt_nc numR_nc) (fun _ =>
  pbind_nc (popt_nc (plit_nc ['.'])) (fun _ =>
  pbind_nc (popt_nc numR_nc) (fun _ => ppure_nc _)))))

theorem extraR_nc : NoCrash extraR :=
  pbind_nc (plit_nc ['.']) (fun _ => pbind_nc charsR_nc (fun _ => ppure_nc _))

theorem buildR_nc : NoCrash buildR :=
  pbind_nc (plit_nc ['+']) (fun _ => pbind_nc charsR_nc (fun _ => ppure_nc _))

theorem preR_nc : NoCrash preR :=
  pbind_nc (plit_nc ['-']) (fun _ => pbind_nc charsR_nc (fun _ => ppure_nc _))

theorem afterVR_nc : NoCrash afterVR :=
  porelse_nc
    (pbind_nc (popt_nc preR_nc) (fun _ =>
      pbind_nc (popt_nc buildR_nc) (fun _ =>
      pbind_nc peof_nc (fun _ => ppure_nc _))))
    (pbind_nc buildR_nc (fun _ =>
      pbind_nc preR_nc (fun _ =>
      pbind_nc peof_nc (fun _ => ppure_nc _))))

theorem versionR_nc : NoCrash versionR :=
  pbind_nc (popt_nc (porelse_nc (plit_nc ['v']) (plit_nc ['V']))) (fun _ =>
  pbind_nc (popt_nc (plit_nc [' '])) (fun _ =>
  pbind_nc mainR_nc (fun _ =>
  pbind_nc (popt_nc extraR_nc) (fun _ =>
  pbind_nc afterVR_nc (fun _ => ppure_nc _)))))

theorem parse_version_nc : NoCrash parse_version :=
  pbind_nc (pstarC_nc isSpaceC) (fun _ =>
  pbind_nc versionR_nc (fun _ =>
  pbind_nc (pstarC_nc isSpaceC) (fun _ =>
  pbind_nc peof_nc (fun _ => ppure_nc _))))

/-- The head of the input, if any, fails the class test. -/
def headNotF (f : Char → Bool) : List Char → Prop
  | [] => True
  | c :: _ => f c = false

theorem takeWhileC_rest_headNot (f : Char → Bool) :
    ∀ s : List Char, headNotF f (takeWhileC f s).2 := by
  intro s
  induction s with
  | nil => trivial
  | cons c cs ih =>
    unfold takeWhileC
    by_cases hc : f c = true
    · rw [if_pos hc]
      exact ih
    · rw [if_neg hc]
      simpa [headNotF] using hc

theorem pstarC_ok_rest {f : Char → Bool} {s : List Char} {a : List Char}
    {r : List Char} (h : pstarC f s = PRes.ok a r) : headNotF f r := by
  unfold pstarC at h
  cases h
  exact takeWhileC_rest_headNot f s

theorem pbind_ok {α β : Type} {p : Parser α} {f : α → Parser β}
    {s : List Char} {a : β} {r : List Char}
    (h : pbind p f s = PRes.ok a r) :
    ∃ b s', p s = PRes.ok b s' ∧ f b s' = PRes.ok a r := by
  unfold pbind at h
  cases hps : p s with
  | ok b s' => rw [hps] at h; exact ⟨b, s', rfl, h⟩
  | fail => rw [hps] at h; exact PRes.noConfusion h
  | crash => rw [hps] at h; exact PRes.noConfusion h

theorem ppure_ok {α : Type} {a b : α} {s r : List Char}
    (h : ppure a s = PRes.ok b r) : b = a ∧ r = s := by
  unfold ppure at h
  cases h
  exact ⟨rfl, rfl⟩

theorem porelse_ok {α : Type} {p q : Parser α} {s : List Char} {a : α}
    {r : List Char} (h : porelse p q s = PRes.ok a r) :
    p s = PRes.ok a r ∨ q s = PRes.ok a r := by
  unfold porelse at h
  cases hps : p s with
  | ok b s' =>
    rw [hps] at h
    exact Or.inl (show PRes.ok b s' = PRes.ok a r from h)
  | fail => rw [hps] at h; exact Or.inr h
  | crash => rw [hps] at h; exact PRes.noConfusion h

theorem plit_ok {t s a r : List Char} (h : plit t s = PRes.ok a r) :
    a = t ∧ matchLit t s = some r := by
  unfold plit at h
  cases hm : matchLit t s with
  | some x => rw [hm] at h; injection h with h1 h2; exact ⟨h1.symm, by rw [h2]⟩
  | none => rw [hm] at h; exact PRes.noConfusion h

theorem matchLit_single {c : Char} {s r : List Char}
    (h : matchLit [c] s = some r) : s = c :: r := by
  cases s with
  | nil => exact Option.noConfusion h
  | cons d t =>
    unfold matchLit at h
    by_cases hd : d = c
    · rw [if_pos hd] at h
      unfold matchLit at h
      injection h with h1
      rw [hd, h1]
    · rw [if_neg hd] at h
      exact Option.noConfusion h

theorem opTokenR_nc : NoCrash opTokenR :=
  porelse_nc (plit_nc _) (porelse_nc (plit_nc _) (porelse_nc (plit_nc _)
  (porelse_nc (plit_nc _) (porelse_nc (plit_nc _) (porelse_nc (plit_nc _)
  (porelse_nc (plit_nc _) (porelse_nc (plit_nc _) (porelse_nc (plit_nc _)
  (porelse_nc (plit_nc _) (plit_nc _))))))))))

/-- If the op rule panics, the input begins with a space: every other
    alternative of the operator-token choice produces a token that
    Op::from_str accepts. -/
theorem opR_crash_start {s : List Char} (h : opR s = PRes.crash) :
    ∃ r, s = ' ' :: r := by
  unfold opR at h
  cases htok : opTokenR s with
  | ok t r =>
    rw [htok, pstep_ok] at h
    cases hfs : Op.from_str t with
    | ok o => rw [hfs] at h; exact PRes.noConfusion h
    | error e =>
      rcases porelse_ok htok with h1 | htok
      · obtain ⟨ht, _⟩ := plit_ok h1
        rw [ht] at hfs
        exact Except.noConfusion hfs
      rcases porelse_ok htok with h1 | htok
      · obtain ⟨ht, _⟩ := plit_ok h1
        rw [ht] at hfs
        exact Except.noConfusion hfs
      rcases porelse_ok htok with h1 | htok
      · obtain ⟨ht, _⟩ := plit_ok h1
        rw [ht] at hfs
        exact Except.noConfusion hfs
      rcases porelse_ok htok with h1 | htok
      · obtain ⟨ht, _⟩ := plit_ok h1
        rw [ht] at hfs
        exact Except.noConfusion hfs
      rcases porelse_ok htok with h1 | htok
      · obtain ⟨ht, _⟩ := plit_ok h1
        rw [ht] at hfs
        exact Except.noConfusion hfs
      rcases porelse_ok htok with h1 | htok
      · obtain ⟨ht, _⟩ := plit_ok h1
        rw [ht] at hfs
        exact Except.noConfusion hfs
      rcases porelse_ok htok with h1 | htok
      · obtain ⟨ht, _⟩ := plit_ok h1
        rw [ht] at hfs
        exact Except.noConfusion hfs
      rcases porelse_ok htok with h1 | htok
      · obtain ⟨ht, _⟩ := plit_ok h1
        rw [ht] at hfs
        exact Except.noConfusion hfs
      rcases porelse_ok htok with h1 | htok
      · obtain ⟨ht, _⟩ := plit_ok h1
        rw [ht] at hfs
        exact Except.noConfusion hfs
      rcases porelse_ok htok with h1 | htok
      · obtain ⟨ht, hm⟩ := plit_ok h1
        exact ⟨r, matchLit_single hm⟩
      · obtain ⟨ht, _⟩ := plit_ok htok
        rw [ht] at hfs
        exact Except.noConfusion hfs
  | fail => rw [htok, pstep_fail] at h; exact PRes.noConfusion h
  | crash => exact absurd htok (opTokenR_nc s)

theorem opR_nc_at {s : List Char} (hs : headNotF isSpaceC s) :
    opR s ≠ PRes.crash := by
  intro h
  obtain ⟨r, hr⟩ := opR_crash_start h
  rw [hr] at hs
  exact Bool.noConfusion (hs : isSpaceC ' ' = false)

theorem pbind_crash {α β : Type} {p : Parser α} {f : α → Parser β}
    {s : List Char} (h : pbind p f s = PRes.crash) :
    p s = PRes.crash ∨ ∃ b s', p s = PRes.ok b s' ∧ f b s' = PRes.crash := by
  unfold pbind at h
  cases hps : p s with
  | ok b s' =>
    rw [hps] at h
    exact Or.inr ⟨b, s', rfl, h⟩
  | fail =>
    rw [hps] at h
    exact PRes.noConfusion h
  | crash => exact Or.inl rfl

theorem rangeR_nc_at {s : List Char} (hs : headNotF isSpaceC s) :
    rangeR s ≠ PRes.crash := by
  intro h
  rcases pbind_crash h with h1 | ⟨o, r, ho, h1⟩
  · exact opR_nc_at hs h1
  · have hrest : NoCrash (pbind (pstarC isSpaceC) (fun _ =>
        pbind versionR (fun v =>
        pbind (pstarC isSpaceC) (fun _ => ppure (o, v))))) :=
      pbind_nc (pstarC_nc isSpaceC) (fun _ =>
      pbind_nc versionR_nc (fun v =>
      pbind_nc (pstarC_nc isSpaceC) (fun _ => ppure_nc _)))
    exact hrest r h1

theorem rangeR_ok_rest {s : List Char} {a : Op × Version} {r : List Char}
    (h : rangeR s = PRes.ok a r) : headNotF isSpaceC r := by
  obtain ⟨o, s1, _, h1⟩ := pbind_ok h
  obtain ⟨w, s2, _, h2⟩ := pbind_ok h1
  obtain ⟨v, s3, _, h3⟩ := pbind_ok h2
  obtain ⟨w2, s4, hw2, h4⟩ := pbind_ok h3
  obtain ⟨_, hr⟩ := ppure_ok h4
  rw [hr]
  exact pstarC_ok_rest hw2

theorem isSep_false_isSpace_false {c : Char} (h : isSepC c = false) :
    isSpaceC c = false := by
  unfold isSepC at h
  unfold isSpaceC
  by_cases hc : (c == ' ') = true
  · rw [hc] at h
    exact Bool.noConfusion h
  · simpa using hc

theorem separatorR_ok_rest {s : List Char} {a : Unit} {r : List Char}
    (h : separatorR s = PRes.ok a r) : headNotF isSpaceC r := by
  obtain ⟨w, s1, hw, h1⟩ := pbind_ok h
  obtain ⟨_, hr⟩ := ppure_ok h1
  rw [hr]
  have := pstarC_ok_rest hw
  cases s1 with
  | nil => trivial
  | cons c t => exact isSep_false_isSpace_false this

theorem repSepGo_nc (fuel : Nat) :
    ∀ (acc : List (Op × Version)) (s : List Char), headNotF isSpaceC s →
      repSepGo rangeR separatorR fuel acc s ≠ PRes.crash := by
  induction fuel with
  | zero =>
    intro acc s _ h
    exact PRes.noConfusion h
  | succ n ih =>
    intro acc s hs h
    unfold repSepGo at h
    cases hsep : separatorR s with
    | ok w r1 =>
      rw [hsep] at h
      simp only [pstep_ok] at h
      have hr1 : headNotF isSpaceC r1 := separatorR_ok_rest hsep
      cases he : rangeR r1 with
      | ok a r2 =>
        rw [he] at h
        simp only [pstep_ok] at h
        exact ih (a :: acc) r2 (rangeR_ok_rest he) h
      | fail => rw [he, pstep_fail] at h; exact PRes.noConfusion h
      | crash => exact rangeR_nc_at hr1 he
    | fail => rw [hsep, pstep_fail] at h; exact PRes.noConfusion h
    | crash => exact separatorR_nc s hsep

theorem repSep_nc_at {s : List Char} (hs : headNotF isSpaceC s) :
    repSep rangeR separatorR s ≠ PRes.crash := by
  intro h
  unfold repSep at h
  cases he : rangeR s with
  | ok a r =>
    rw [he] at h
    simp only [pstep_ok] at h
    exact repSepGo_nc (r.length + 1) [a] r (rangeR_ok_rest he) h
  | fail => rw [he, pstep_fail] at h; exact PRes.noConfusion h
  | crash => exact rangeR_nc_at hs he

theorem parse_range_nc : NoCrash parse_range := by
  intro s h
  rcases pbind_crash h with h1 | ⟨w, s1, hst, h1⟩
  · exact pstarC_nc isSpaceC s h1
  · have hs1 : headNotF isSpaceC s1 := pstarC_ok_rest hst
    rcases pbind_crash h1 with h2 | ⟨r, s2, hrep, h2⟩
    · exact repSep_nc_at hs1 h2
    · have hrest : NoCrash (pbind (pstarC isSpaceC) (fun _ =>
          pbind peof (fun _ => ppure (Range.from_ver_vec r)))) :=
        pbind_nc (pstarC_nc isSpaceC) (fun _ =>
        pbind_nc peof_nc (fun _ => ppure_nc _))
      exact hrest s2 h2

/-- C10: the public parsers never panic — every input yields a parsed
    value or an ordinary parse failure (in particular, the space
    alternative of the op rule never reaches Op::from_str's unwrap) —
    and Version::partial_cmp always returns Some, so Ord::cmp's unwrap
    never fails. -/
theorem parsers_never_panic :
    (∀ s, parse_version s ≠ PRes.crash) ∧
    (∀ s, parse_range s ≠ PRes.crash) ∧
    (∀ a b : Version, (Version.partial_cmp a b).isSome = true) :=
  ⟨parse_version_nc, parse_range_nc, partial_cmp_isSome⟩

/-!
### Round trip: parsing a rendered version

The lemmas below run the grammar over `Version.to_string v` piecewise and
show it reproduces `v` exactly.
-/

/-- Little-endian value of a digit list. -/
def valLE : List Char → Nat
  | [] => 0
  | c :: cs => (c.toNat - 48) + 10 * valLE cs

theorem digitChar_toNat {d : Nat} (h : d < 10) :
    (Nat.digitChar d).toNat = 48 + d := by
  interval_cases d <;> rfl

theorem digitChar_isDigit {d : Nat} (h : d < 10) :
    isDigitC (Nat.digitChar d) = true := by
  interval_cases d <;> rfl

theorem natToDecAux_valLE : ∀ f n : Nat, n ≤ f → valLE (natToDecAux f n) = n := by
  intro f
  induction f with
  | zero =>
    intro n hn
    have : n = 0 := Nat.le_zero.mp hn
    rw [this]
    rfl
  | succ k ih =>
    intro n hn
    cases n with
    | zero => rfl
    | succ j =>
      show valLE (Nat.digitChar ((j + 1) % 10) :: natToDecAux k ((j + 1) / 10)) = j + 1
      unfold valLE
      rw [ih ((j + 1) / 10) (by omega), digitChar_toNat (Nat.mod_lt _ (by omega))]
      omega

theorem natToDecAux_digits : ∀ f n : Nat, ∀ c ∈ natToDecAux f n, isDigitC c = true := by
  intro f
  induction f with
  | zero =>
    intro n c hc
    cases hc
  | succ k ih =>
    intro n c hc
    cases n with
    | zero => cases hc
    | succ j =>
      rcases List.mem_cons.mp hc with rfl | hc'
      · exact digitChar_isDigit (Nat.mod_lt _ (by omega))
      · exact ih _ c hc'

theorem digitsToNat_reverse : ∀ l : List Char, digitsToNat l.reverse = valLE l := by
  intro l
  induction l with
  | nil => rfl
  | cons c cs ih =>
    unfold digitsToNat at ih ⊢
    rw [List.reverse_cons, List.foldl_append]
    show 10 * (List.foldl (fun a d => 10 * a + (d.toNat - 48)) 0 cs.reverse) +
      (c.toNat - 48) = valLE (c :: cs)
    rw [ih]
    show 10 * valLE cs + (c.toNat - 48) = (c.toNat - 48) + 10 * valLE cs
    omega

theorem digitsToNat_natToDec (n : Nat) : digitsToNat (natToDec n) = n := by
  unfold natToDec
  by_cases h : n = 0
  · rw [if_pos h, h]
    rfl
  · rw [if_neg h, digitsToNat_reverse, natToDecAux_valLE n n (Nat.le_refl n)]

theorem natToDec_digits {n : Nat} : ∀ c ∈ natToDec n, isDigitC c = true := by
  intro c hc
  unfold natToDec at hc
  by_cases h : n = 0
  · rw [if_pos h] at hc
    rcases List.mem_cons.mp hc with rfl | hc'
    · rfl
    · cases hc'
  · rw [if_neg h] at hc
    exact natToDecAux_digits n n c (List.mem_reverse.mp hc)

theorem natToDec_head (n : Nat) :
    ∃ c t, natToDec n = c :: t ∧ isDigitC c = true := by
  cases hd : natToDec n with
  | nil =>
    exfalso
    unfold natToDec at hd
    by_cases h : n = 0
    · rw [if_pos h] at hd
      exact List.noConfusion hd
    · rw [if_neg h] at hd
      have h1 : natToDecAux n n = Nat.digitChar (n % 10) :: natToDecAux (n - 1) (n / 10) := by
        cases n with
        | zero => exact absurd rfl h
        | succ j => rfl
      rw [h1] at hd
      simp at hd
  | cons c t =>
    refine ⟨c, t, rfl, ?_⟩
    exact natToDec_digits c (hd ▸ List.mem_cons_self c t)

theorem takeWhileC_append {f : Char → Bool} :
    ∀ {xs : List Char}, (∀ c ∈ xs, f c = true) → ∀ {ys : List Char},
      headNotF f ys → takeWhileC f (xs ++ ys) = (xs, ys) := by
  intro xs
  induction xs with
  | nil =>
    intro _ ys hys
    cases ys with
    | nil => rfl
    | cons c t =>
      show takeWhileC f (c :: t) = ([], c :: t)
      unfold takeWhileC
      rw [if_neg]
      rw [hys]
      exact Bool.noConfusion
  | cons x xs ih =>
    intro hxs ys hys
    show takeWhileC f (x :: (xs ++ ys)) = (x :: xs, ys)
    unfold takeWhileC
    rw [if_pos (hxs x (List.mem_cons_self x xs)),
      ih (fun c hc => hxs c (List.mem_cons_of_mem x hc)) hys]

theorem pstarC_append {f : Char → Bool} {xs : List Char}
    (hxs : ∀ c ∈ xs, f c = true) {ys : List Char} (hys : headNotF f ys) :
    pstarC f (xs ++ ys) = PRes.ok xs ys := by
  unfold pstarC
  rw [takeWhileC_append hxs hys]

theorem pstarC_no_match {f : Char → Bool} {s : List Char}
    (hs : headNotF f s) : pstarC f s = PRes.ok [] s := by
  have h := @pstarC_append f [] (fun c hc => absurd hc (List.not_mem_nil c)) s hs
  simpa using h

theorem pplusC_append {f : Char → Bool} {x : Char} {xs : List Char}
    (hx : f x = true) (hxs : ∀ c ∈ xs, f c = true) {ys : List Char}
    (hys : headNotF f ys) :
    pplusC f ((x :: xs) ++ ys) = PRes.ok (x :: xs) ys := by
  show pplusC f (x :: (xs ++ ys)) = PRes.ok (x :: xs) ys
  unfold pplusC
  show (if f x = true then
      PRes.ok (x :: (takeWhileC f (xs ++ ys)).1) (takeWhileC f (xs ++ ys)).2
    else PRes.fail) = PRes.ok (x :: xs) ys
  rw [if_pos hx, takeWhileC_append hxs hys]

theorem numR_run {n : Nat} (hn : n < 4294967296) {ys : List Char}
    (hys : headNotF isDigitC ys) :
    numR (natToDec n ++ ys) = PRes.ok n ys := by
  obtain ⟨c, t, hct, hdig⟩ := natToDec_head n
  unfold numR
  rw [hct]
  rw [show (c :: t) ++ ys = c :: (t ++ ys) from rfl]
  have ht : ∀ d ∈ t, isDigitC d = true := by
    intro d hd
    exact natToDec_digits d (hct ▸ List.mem_cons_of_mem c hd)
  have hpl : pplusC isDigitC (c :: (t ++ ys)) = PRes.ok (c :: t) ys :=
    pplusC_append hdig ht hys
  rw [hpl, pstep_ok, ← hct, digitsToNat_natToDec, if_pos hn]

theorem charsR_run {ts : List Char} (hne : ts ≠ [])
    (hts : ∀ c ∈ ts, isCharsC c = true) {ys : List Char}
    (hys : headNotF isCharsC ys) :
    charsR (ts ++ ys) = PRes.ok (String.mk ts) ys := by
  cases ts with
  | nil => exact absurd rfl hne
  | cons x xs =>
    unfold charsR
    rw [pplusC_append (hts x (List.mem_cons_self x xs))
      (fun c hc => hts c (List.mem_cons_of_mem x hc)) hys, pstep_ok]

theorem plit_cons (c : Char) (ys : List Char) :
    plit [c] (c :: ys) = PRes.ok [c] ys := by
  unfold plit matchLit
  rw [if_pos rfl]
  rfl

theorem plit_neq {c d : Char} (h : d ≠ c) (ys : List Char) :
    plit [c] (d :: ys) = PRes.fail := by
  unfold plit matchLit
  rw [if_neg h]

theorem plit_nil_fail (c : Char) : plit [c] [] = PRes.fail := rfl

theorem pbind_eq_ok {α β : Type} {p : Parser α} {f : α → Parser β}
    {s : List Char} {a : α} {r : List Char} (h : p s = PRes.ok a r) :
    pbind p f s = f a r := by
  unfold pbind
  rw [h]

theorem pbind_eq_fail {α β : Type} {p : Parser α} {f : α → Parser β}
    {s : List Char} (h : p s = PRes.fail) : pbind p f s = PRes.fail := by
  unfold pbind
  rw [h]

theorem popt_eq_ok {α : Type} {p : Parser α} {s : List Char} {a : α}
    {r : List Char} (h : p s = PRes.ok a r) : popt p s = PRes.ok (some a) r := by
  unfold popt porelse
  rw [pbind_eq_ok h]
  rfl

theorem popt_eq_fail {α : Type} {p : Parser α} {s : List Char}
    (h : p s = PRes.fail) : popt p s = PRes.ok none s := by
  unfold popt porelse
  rw [pbind_eq_fail h]
  rfl

theorem porelse_eq_ok {α : Type} {p q : Parser α} {s : List Char} {a : α}
    {r : List Char} (h : p s = PRes.ok a r) : porelse p q s = PRes.ok a r := by
  unfold porelse
  rw [h]

theorem porelse_eq_fail {α : Type} {p q : Parser α} {s : List Char}
    (hp : p s = PRes.fail) : porelse p q s = q s := by
  unfold porelse
  rw [hp]

/-- A character of the digit class differs from any character outside it. -/
theorem digit_ne {c d : Char} (hc : isDigitC c = true) (hd : isDigitC d = false) :
    c ≠ d := by
  intro h
  rw [h, hd] at hc
  exact Bool.noConfusion hc

theorem plit_fail_digit_head {lit : Char} (hlit : isDigitC lit = false)
    (n : Nat) (X : List Char) : plit [lit] (natToDec n ++ X) = PRes.fail := by
  obtain ⟨c, t, hct, hdig⟩ := natToDec_head n
  rw [hct]
  exact plit_neq (digit_ne hdig hlit) (t ++ X)

theorem headNotF_natToDec {f : Char → Bool}
    (hf : ∀ c, isDigitC c = true → f c = false) (n : Nat) (X : List Char) :
    headNotF f (natToDec n ++ X) := by
  obtain ⟨c, t, hct, hdig⟩ := natToDec_head n
  rw [hct]
  exact hf c hdig

theorem headNotF_cons {f : Char → Bool} {c : Char} {t : List Char}
    (h : f c = false) : headNotF f (c :: t) := h

/-- Validity of an optional token component: absent, or a non-empty
    token over the grammar's chars alphabet. -/
def tokOk : Option String → Prop
  | none => True
  | some t => t.data ≠ [] ∧ ∀ c ∈ t.data, isCharsC c = true

theorem mainR_run {M m p : Nat} (hM : M < 4294967296) (hm : m < 4294967296)
    (hp : p < 4294967296) {ys : List Char} (hys : headNotF isDigitC ys) :
    mainR (natToDec M ++ '.' :: (natToDec m ++ '.' :: (natToDec p ++ ys))) =
      PRes.ok (M, some m, some p) ys := by
  have h1 : numR (natToDec M ++ '.' :: (natToDec m ++ '.' :: (natToDec p ++ ys))) =
      PRes.ok M ('.' :: (natToDec m ++ '.' :: (natToDec p ++ ys))) :=
    numR_run hM (headNotF_cons (by decide))
  have h2 : popt (plit ['.']) ('.' :: (natToDec m ++ '.' :: (natToDec p ++ ys))) =
      PRes.ok (some ['.']) (natToDec m ++ '.' :: (natToDec p ++ ys)) :=
    popt_eq_ok (plit_cons '.' _)
  have h3 : numR (natToDec m ++ '.' :: (natToDec p ++ ys)) =
      PRes.ok m ('.' :: (natToDec p ++ ys)) :=
    numR_run hm (headNotF_cons (by decide))
  have h4 : popt (plit ['.']) ('.' :: (natToDec p ++ ys)) =
      PRes.ok (some ['.']) (natToDec p ++ ys) :=
    popt_eq_ok (plit_cons '.' _)
  have h5 : numR (natToDec p ++ ys) = PRes.ok p ys := numR_run hp hys
  simp only [mainR, pbind_eq_ok h1, pbind_eq_ok h2, pbind_eq_ok (popt_eq_ok h3),
    pbind_eq_ok h4, pbind_eq_ok (popt_eq_ok h5), ppure]

theorem charsR_nilrest {ts : List Char} (hne : ts ≠ [])
    (hts : ∀ c ∈ ts, isCharsC c = true) :
    charsR ts = PRes.ok (String.mk ts) [] := by
  have h := @charsR_run ts hne hts [] trivial
  rwa [List.append_nil] at h

theorem headNotF_chars_pre_build (p b : Option String) :
    headNotF isCharsC (renderOpt '-' p ++ renderOpt '+' b) := by
  cases p <;> cases b <;>
    simp only [renderOpt, List.nil_append, List.cons_append] <;>
    trivial

theorem popt_extraR_run {e : Option String} (he : tokOk e)
    (p b : Option String) :
    popt extraR (renderOpt '.' e ++ (renderOpt '-' p ++ renderOpt '+' b)) =
      PRes.ok e (renderOpt '-' p ++ renderOpt '+' b) := by
  cases e with
  | none =>
    simp only [renderOpt, List.nil_append]
    cases p with
    | some tp =>
      exact popt_eq_fail (pbind_eq_fail (plit_neq (by decide) _))
    | none =>
      simp only [renderOpt, List.nil_append]
      cases b with
      | some tb => exact popt_eq_fail (pbind_eq_fail (plit_neq (by decide) _))
      | none => exact popt_eq_fail (pbind_eq_fail (plit_nil_fail '.'))
  | some te =>
    obtain ⟨hne, hall⟩ := he
    have hch : charsR (te.data ++ (renderOpt '-' p ++ renderOpt '+' b)) =
        PRes.ok (String.mk te.data) (renderOpt '-' p ++ renderOpt '+' b) :=
      charsR_run hne hall (headNotF_chars_pre_build p b)
    refine popt_eq_ok ?_
    show extraR ('.' :: (te.data ++ (renderOpt '-' p ++ renderOpt '+' b))) =
      PRes.ok (some te).get! (renderOpt '-' p ++ renderOpt '+' b)
    simp only [extraR, pbind_eq_ok (plit_cons '.' _), pbind_eq_ok hch, ppure]
    rfl

theorem afterVR_run {p b : Option String} (hp : tokOk p) (hb : tokOk b) :
    afterVR (renderOpt '-' p ++ renderOpt '+' b) = PRes.ok (p, b) [] := by
  cases p with
  | none =>
    cases b with
    | none =>
      show afterVR [] = PRes.ok (none, none) []
      have h1 : popt preR ([] : List Char) = PRes.ok none [] :=
        popt_eq_fail (pbind_eq_fail (plit_nil_fail '-'))
      have h2 : popt buildR ([] : List Char) = PRes.ok none [] :=
        popt_eq_fail (pbind_eq_fail (plit_nil_fail '+'))
      simp only [afterVR]
      refine porelse_eq_ok ?_
      simp only [pbind_eq_ok h1, pbind_eq_ok h2,
        pbind_eq_ok (show peof [] = PRes.ok () [] from rfl), ppure]
    | some tb =>
      obtain ⟨hne, hall⟩ := hb
      show afterVR ('+' :: tb.data) = PRes.ok (none, some tb) []
      have h1 : popt preR ('+' :: tb.data) = PRes.ok none ('+' :: tb.data) :=
        popt_eq_fail (pbind_eq_fail (plit_neq (by decide) _))
      have hbd : buildR ('+' :: tb.data) = PRes.ok (String.mk tb.data) [] := by
        simp only [buildR, pbind_eq_ok (plit_cons '+' _),
          pbind_eq_ok (charsR_nilrest hne hall), ppure]
      simp only [afterVR]
      refine porelse_eq_ok ?_
      simp only [pbind_eq_ok h1, pbind_eq_ok (popt_eq_ok hbd),
        pbind_eq_ok (show peof [] = PRes.ok () [] from rfl), ppure]
  | some tp =>
    obtain ⟨hne, hall⟩ := hp
    cases b with
    | none =>
      show afterVR ('-' :: (tp.data ++ [])) = PRes.ok (some tp, none) []
      rw [List.append_nil]
      have hpr : preR ('-' :: tp.data) = PRes.ok (String.mk tp.data) [] := by
        simp only [preR, pbind_eq_ok (plit_cons '-' _),
          pbind_eq_ok (charsR_nilrest hne hall), ppure]
      have h2 : popt buildR ([] : List Char) = PRes.ok none [] :=
        popt_eq_fail (pbind_eq_fail (plit_nil_fail '+'))
      simp only [afterVR]
      refine porelse_eq_ok ?_
      simp only [pbind_eq_ok (popt_eq_ok hpr), pbind_eq_ok h2,
        pbind_eq_ok (show peof [] = PRes.ok () [] from rfl), ppure]
    | some tb =>
      obtain ⟨hneb, hallb⟩ := hb
      show afterVR ('-' :: (tp.data ++ ('+' :: tb.data))) =
        PRes.ok (some tp, some tb) []
      have hpr : preR ('-' :: (tp.data ++ ('+' :: tb.data))) =
          PRes.ok (String.mk tp.data) ('+' :: tb.data) := by
        simp only [preR, pbind_eq_ok (plit_cons '-' _),
          pbind_eq_ok (@charsR_run tp.data hne hall ('+' :: tb.data)
            (headNotF_cons (by decide))), ppure]
      have hbd : buildR ('+' :: tb.data) = PRes.ok (String.mk tb.data) [] := by
        simp only [buildR, pbind_eq_ok (plit_cons '+' _),
          pbind_eq_ok (charsR_nilrest hneb hallb), ppure]
      simp only [afterVR]
      refine porelse_eq_ok ?_
      simp only [pbind_eq_ok (popt_eq_ok hpr), pbind_eq_ok (popt_eq_ok hbd),
        pbind_eq_ok (show peof [] = PRes.ok () [] from rfl), ppure]

theorem headNotF_digit_tail (e p b : Option String) :
    headNotF isDigitC (renderOpt '.' e ++ (renderOpt '-' p ++ renderOpt '+' b)) := by
  cases e <;> cases p <;> cases b <;>
    simp only [renderOpt, List.nil_append, List.cons_append] <;>
    trivial

theorem digit_not_space {c : Char} (h : isDigitC c = true) :
    isSpaceC c = false := by
  unfold isSpaceC
  rw [beq_eq_false_iff_ne]
  intro hc
  rw [hc] at h
  exact absurd h (by decide)

theorem versionR_run (M m pt : Nat) (e pr bu : Option String)
    (hM : M < 4294967296) (hm : m < 4294967296) (hpt : pt < 4294967296)
    (he : tokOk e) (hpr : tokOk pr) (hbu : tokOk bu) :
    versionR (natToDec M ++ '.' :: (natToDec m ++ '.' :: (natToDec pt ++
        (renderOpt '.' e ++ (renderOpt '-' pr ++ renderOpt '+' bu))))) =
      PRes.ok (Version.mk M m pt e pr bu) [] := by
  have h0 : popt (porelse (plit ['v']) (plit ['V']))
      (natToDec M ++ '.' :: (natToDec m ++ '.' :: (natToDec pt ++
        (renderOpt '.' e ++ (renderOpt '-' pr ++ renderOpt '+' bu))))) =
      PRes.ok none (natToDec M ++ '.' :: (natToDec m ++ '.' :: (natToDec pt ++
        (renderOpt '.' e ++ (renderOpt '-' pr ++ renderOpt '+' bu))))) := by
    refine popt_eq_fail ?_
    rw [porelse_eq_fail (plit_fail_digit_head (by decide) M _)]
    exact plit_fail_digit_head (by decide) M _
  have h1 : popt (plit [' '])
      (natToDec M ++ '.' :: (natToDec m ++ '.' :: (natToDec pt ++
        (renderOpt '.' e ++ (renderOpt '-' pr ++ renderOpt '+' bu))))) =
      PRes.ok none (natToDec M ++ '.' :: (natToDec m ++ '.' :: (natToDec pt ++
        (renderOpt '.' e ++ (renderOpt '-' pr ++ renderOpt '+' bu))))) :=
    popt_eq_fail (plit_fail_digit_head (by decide) M _)
  have hmain := mainR_run hM hm hpt (headNotF_digit_tail e pr bu)
  have hex := popt_extraR_run he pr bu
  have haf := afterVR_run hpr hbu
  simp only [versionR, pbind_eq_ok h0, pbind_eq_ok h1, pbind_eq_ok hmain,
    pbind_eq_ok hex, pbind_eq_ok haf, ppure, Version.new_w_extra,
    Option.getD_some]

/-- C9: for every Version with valid components (u32-representable
    numerics; extra/pre/build, when present, non-empty tokens over the
    alphanumeric/underscore/dot alphabet), parsing the canonical
    rendering succeeds and yields the version itself, which is
    range-order-equal to the original. -/
theorem parse_to_string_round_trip (v : Version)
    (hM : v.major < 4294967296) (hm : v.minor < 4294967296)
    (hp : v.patch < 4294967296) (he : tokOk v.extra_version)
    (hpr : tokOk v.pre_release) (hb : tokOk v.build) :
    parse_version (Version.to_string v) = PRes.ok v [] ∧
      Version.cmp v v = Ordering.eq := by
  obtain ⟨M, m, pt, e, pr, bu⟩ := v
  refine ⟨?_, cmp_refl _⟩
  show parse_version (natToDec M ++ '.' :: (natToDec m ++ '.' :: (natToDec pt ++
      (renderOpt '.' e ++ (renderOpt '-' pr ++ renderOpt '+' bu))))) =
    PRes.ok (Version.mk M m pt e pr bu) []
  have h0 : pstarC isSpaceC (natToDec M ++ '.' :: (natToDec m ++ '.' ::
      (natToDec pt ++ (renderOpt '.' e ++
        (renderOpt '-' pr ++ renderOpt '+' bu))))) =
      PRes.ok [] (natToDec M ++ '.' :: (natToDec m ++ '.' :: (natToDec pt ++
        (renderOpt '.' e ++ (renderOpt '-' pr ++ renderOpt '+' bu))))) :=
    pstarC_no_match (headNotF_natToDec (fun c hc => digit_not_space hc) M _)
  have hver := versionR_run M m pt e pr bu hM hm hp he hpr hb
  simp only [parse_version, pbind_eq_ok h0, pbind_eq_ok hver,
    pbind_eq_ok (show pstarC isSpaceC [] = PRes.ok [] [] from rfl),
    pbind_eq_ok (show peof [] = PRes.ok () [] from rfl), ppure]

/-- Witness for C9 at the concrete version 1.2.3.4-rc.1+b_1. -/
theorem parse_to_string_round_trip_witness :
    parse_version (Version.to_string
        (Version.mk 1 2 3 (some "4") (some "rc.1") (some "b_1"))) =
      PRes.ok (Version.mk 1 2 3 (some "4") (some "rc.1") (some "b_1")) [] ∧
      Version.cmp (Version.mk 1 2 3 (some "4") (some "rc.1") (some "b_1"))
        (Version.mk 1 2 3 (some "4") (some "rc.1") (some "b_1")) =
        Ordering.eq :=
  parse_to_string_round_trip _ (by decide) (by decide) (by decide)
    ⟨by decide, by decide⟩ ⟨by decide, by decide⟩ ⟨by decide, by decide⟩

end Rvm
